import Mathlib

/-!
# Gorilla-style XOR float codec (`tsdb/engine/tsm1/multifloat.go`)

A shallow embedding of `MultiFloatEncoder` and `MultiFloatDecoder`.

* A `float64` is represented by its 64-bit pattern (`math.Float64bits`), a `Nat`
  below `2 ^ 64`; `math.Float64frombits` is the identity on patterns.
* A byte is a `Nat` below `256`; a byte slice is a `List Nat`.
* The bit-stream writer and reader are collaborators that are not part of the
  source file; they are modelled from the interface description of the
  specification (section 6).
-/

namespace Tsm1

/-! ## Machine arithmetic -/

/-- The modulus of `uint64` arithmetic. -/
def two64 : Nat := 2 ^ 64

/-- Subtraction on `uint64` (wraps around). -/
def sub64 (a b : Nat) : Nat := (a + two64 - b % two64) % two64

/-- Left shift on `uint64`: bits shifted past position 63 are lost, and a shift
count of 64 or more gives 0. -/
def shl64 (x s : Nat) : Nat := if 64 ≤ s then 0 else (x <<< s) % two64

/-- The number of bits needed to write `x`, for `x` below `2 ^ w`. -/
def bitLen : Nat → Nat → Nat
  | 0, _ => 0
  | w + 1, x => if x = 0 then 0 else bitLen w (x / 2) + 1

/-- The function `bits.LeadingZeros64`: `64 - Len64 x`. -/
def LeadingZeros64 (x : Nat) : Nat := 64 - bitLen 64 x

/-- Number of trailing zero bits among the lowest `w` bits of `x`. -/
def ctz : Nat → Nat → Nat
  | 0, _ => 0
  | w + 1, x => if x % 2 = 1 then 0 else ctz w (x / 2) + 1

/-- The function `bits.TrailingZeros64` (64 for `x = 0`). -/
def TrailingZeros64 (x : Nat) : Nat := ctz 64 x

/-- The function `math.IsNaN` on a bit pattern: exponent all ones and a non-zero
mantissa. -/
def IsNaN (v : Nat) : Bool := (v >>> 52) % 2048 == 2047 && v % 2 ^ 52 != 0

/-- Modelled from the spec: the package constant `uvnan`, declared outside
`multifloat.go`; the reserved sentinel pattern, "the canonical quiet-NaN bit
pattern", which is the pattern of `math.NaN()`. -/
def uvnan : Nat := 0x7FF8000000000001

/-- The bit pattern of `math.NaN()`. -/
def NaN : Nat := uvnan

/-- The two error kinds of the codec. -/
inductive Error where
  | unsupportedValue
  | truncatedStream
deriving DecidableEq, Repr

/-! ## Bit-stream primitives -/

/-- The low `n` bits of `u`, most significant first. -/
def natToBits : Nat → Nat → List Bool
  | 0, _ => []
  | n + 1, u => natToBits n (u / 2) ++ [decide (u % 2 = 1)]

/-- The number whose binary digits, most significant first, are `bs`. -/
def bitsToNat (bs : List Bool) : Nat :=
  bs.foldl (fun acc b => 2 * acc + (if b then 1 else 0)) 0

/-- The bits of a byte slice, most significant bit of each byte first. -/
def bytesToBits : List Nat → List Bool
  | [] => []
  | x :: xs => natToBits 8 x ++ bytesToBits xs

/-- Modelled from the spec: the state of the external bit-stream writer
(`bitstream.BitWriter`) together with the byte buffer it writes to: `buf` is the
buffer and `pending` holds the bits of the byte under construction, most
significant first. -/
structure BitWriter where
  buf : List Nat
  pending : List Bool
deriving DecidableEq, Repr

namespace BitWriter

/-- Modelled from the spec: `WriteBit` of the external bit-stream writer; a byte
is appended to the buffer once eight bits are pending. -/
def WriteBit (w : BitWriter) (bit : Bool) : BitWriter :=
  if (w.pending ++ [bit]).length = 8 then
    { buf := w.buf ++ [bitsToNat (w.pending ++ [bit])], pending := [] }
  else { buf := w.buf, pending := w.pending ++ [bit] }

/-- Writes a list of bits in order. -/
def writeAll (w : BitWriter) (bs : List Bool) : BitWriter :=
  bs.foldl WriteBit w

/-- Modelled from the spec: `WriteBits(value, widthBits)` of the external
bit-stream writer, which "writes the low `widthBits` bits of `value`,
most-significant first". The width is an `int`; a width that is not positive
writes nothing. -/
def WriteBits (w : BitWriter) (u : Nat) (nbits : Int) : BitWriter :=
  writeAll w (natToBits nbits.toNat u)

/-- Modelled from the spec: `Flush(padBit)` of the external bit-stream writer,
which "pads to byte boundary". -/
def Flush (w : BitWriter) (bit : Bool) : BitWriter :=
  if w.pending = [] then w else writeAll w (List.replicate (8 - w.pending.length) bit)

/-- Modelled from the spec: `Resume(data, count)` of the external bit-stream
writer: the byte under construction becomes `data`, of which `count` bits are
still free, so its `8 - count` high bits are pending. -/
def Resume (w : BitWriter) (data count : Nat) : BitWriter :=
  { buf := w.buf, pending := (natToBits 8 data).take (8 - count) }

end BitWriter

namespace BitReader

/-- Modelled from the spec: `Reset` of the package's `BitReader` (declared
outside `multifloat.go`): attaches the bytes as the bit stream. The reader is
the list of bits not yet consumed. -/
def Reset (data : List Nat) : List Bool := bytesToBits data

/-- Modelled from the spec: `ReadBits(widthBits) → value or error` of the
package's `BitReader`; it fails whenever fewer bits remain than requested. -/
def ReadBits (br : List Bool) (nbits : Nat) : Except Error (Nat × List Bool) :=
  if br.length < nbits then Except.error Error.truncatedStream
  else Except.ok (bitsToNat (br.take nbits) % two64, br.drop nbits)

/-- Modelled from the spec: `ReadBit() → bit or error` of the package's
`BitReader`. The fast path (`CanReadBitFast`, `ReadBitFast`) is "a performance
hint with identical semantics to the checked path" and is not modelled apart. -/
def ReadBit (br : List Bool) : Except Error (Bool × List Bool) :=
  match br with
  | [] => Except.error Error.truncatedStream
  | b :: rest => Except.ok (b, rest)

end BitReader

/-! ## Encoder -/

/-- The type `MultiFloatEncoder`. `val` holds the bit pattern of the `float64`
field. The fields `buf` and `bw` of the source are the one field `bw` here: the
bit writer writes to `buf`, so the buffer is part of the writer's state, and
`bw.buf` is the byte buffer `buf` of the source. -/
structure MultiFloatEncoder where
  val : Nat
  err : Option Error
  leading : Nat
  trailing : Nat
  bw : BitWriter
  first : Bool
  finished : Bool
deriving DecidableEq, Repr

/-- The value `^uint64(0)`. -/
def allOnes : Nat := two64 - 1

/-- The constructor `NewMultiFloatEncoder`. The constant
`floatCompressedGorilla` is declared outside `multifloat.go` and is a parameter.
(The source builds the value as a `FloatEncoder`, a type declared outside the
file; its fields are taken to be those of `MultiFloatEncoder`.) -/
def NewMultiFloatEncoder (floatCompressedGorilla : Nat) : MultiFloatEncoder :=
  { val := 0, err := none, leading := allOnes, trailing := 0,
    bw := { buf := [floatCompressedGorilla <<< 4], pending := [] },
    first := true, finished := false }

namespace MultiFloatEncoder

/-- The method `Reset`. -/
def Reset (floatCompressedGorilla : Nat) (s : MultiFloatEncoder) : MultiFloatEncoder :=
  { val := 0, err := none, leading := allOnes, trailing := 0,
    bw := BitWriter.Resume { s.bw with buf := [floatCompressedGorilla <<< 4] } 0x0 8,
    finished := false, first := true }

/-- The method `Bytes`. -/
def Bytes (s : MultiFloatEncoder) : List Nat × Option Error := (s.bw.buf, s.err)

/-- The method `Write`. The writes to the bit stream of one branch are chained.
In the branch that reuses the window the condition gives `s.leading ≤ 31` and
`s.trailing ≤ 64`, so the conversions `int(s.leading)` and `int(s.trailing)` are
exact; in the other branch `sigbits` is at most 64, and so is `int(sigbits)`. -/
def Write (s : MultiFloatEncoder) (v : Nat) : MultiFloatEncoder :=
  if IsNaN v && !s.finished then
    { s with err := some Error.unsupportedValue }
  else if s.first then
    { s with val := v, first := false, bw := s.bw.WriteBits v 64 }
  else
    let vDelta := v ^^^ s.val
    if vDelta = 0 then
      { s with bw := s.bw.WriteBit false, val := v }
    else
      let leading := LeadingZeros64 vDelta
      let trailing := TrailingZeros64 vDelta
      let leading := leading &&& 0x1F
      let leading := if leading ≥ 32 then 31 else leading
      if s.leading ≠ allOnes ∧ leading ≥ s.leading ∧ trailing ≥ s.trailing then
        { s with
          bw := ((s.bw.WriteBit true).WriteBit false).WriteBits (vDelta >>> s.trailing)
            (64 - (s.leading : Int) - (s.trailing : Int)),
          val := v }
      else
        let sigbits := sub64 (sub64 64 leading) trailing
        { s with
          leading := leading, trailing := trailing,
          bw := ((((s.bw.WriteBit true).WriteBit true).WriteBits leading 5).WriteBits
            sigbits 6).WriteBits (vDelta >>> trailing) (sigbits : Int),
          val := v }

/-- The method `Flush`. -/
def Flush (s : MultiFloatEncoder) : MultiFloatEncoder :=
  if !s.finished then
    let s := Write { s with finished := true } NaN
    { s with bw := s.bw.Flush false }
  else s

/-- Writes the values of a list in order. -/
def writeAll (s : MultiFloatEncoder) (xs : List Nat) : MultiFloatEncoder :=
  xs.foldl Write s

end MultiFloatEncoder

/-! ## Decoder -/

/-- The type `MultiFloatDecoder`. `br` is the bit reader, the list of bits not
yet consumed. -/
structure MultiFloatDecoder where
  val : Nat
  leading : Nat
  trailing : Nat
  br : List Bool
  b : List Nat
  first : Bool
  finished : Bool
  err : Option Error
deriving DecidableEq, Repr

namespace MultiFloatDecoder

/-- The method `SetBytes`: the returned error and the decoder afterwards. -/
def SetBytes (it : MultiFloatDecoder) (b : List Nat) : Option Error × MultiFloatDecoder :=
  if b.length = 0 then
    (none, { it with val := uvnan, leading := 0, trailing := 0, b := b,
                     first := true, finished := false, err := none })
  else
    let it := { it with br := BitReader.Reset (b.drop 1) }
    match BitReader.ReadBits it.br 64 with
    | Except.error e => (some e, it)
    | Except.ok (v, br) =>
      (none, { it with br := br, val := v, leading := 0, trailing := 0, b := b,
                       first := true, finished := false, err := none })

/-- The new-window branch of `Next` (source lines 225-242): reads the 5-bit
leading count and the 6-bit count of significant bits and replaces the window.
Gives the read error, if any, and the decoder afterwards. -/
def readWindow (it : MultiFloatDecoder) : Option Tsm1.Error × MultiFloatDecoder :=
  match BitReader.ReadBits it.br 5 with
  | Except.error e => (some e, it)
  | Except.ok (bits, br) =>
    let it := { it with br := br, leading := bits }
    match BitReader.ReadBits it.br 6 with
    | Except.error e => (some e, it)
    | Except.ok (bits, br) =>
      let it := { it with br := br }
      let mbits := if bits = 0 then 64 else bits
      (none, { it with trailing := sub64 (sub64 64 it.leading) mbits })

/-- The end of `Next` (source lines 245-262): reads the significant bits, applies
them to the current value and tests the result against the sentinel. -/
def readValue (it : MultiFloatDecoder) : Bool × MultiFloatDecoder :=
  let mbits := sub64 (sub64 64 it.leading) it.trailing
  match BitReader.ReadBits it.br mbits with
  | Except.error e => (false, { it with err := some e })
  | Except.ok (bits, br) =>
    let it := { it with br := br }
    let vbits := it.val ^^^ shl64 bits it.trailing
    if vbits = uvnan then (false, { it with finished := true })
    else (true, { it with val := vbits })

/-- The method `Next`: the returned flag and the decoder afterwards. -/
def Next (it : MultiFloatDecoder) : Bool × MultiFloatDecoder :=
  if it.err ≠ none ∨ it.finished then (false, it)
  else if it.first then
    let it := { it with first := false }
    if it.val = uvnan then (false, { it with finished := true })
    else (true, it)
  else
    match BitReader.ReadBit it.br with
    | Except.error e => (false, { it with err := some e })
    | Except.ok (bit, br) =>
      let it := { it with br := br }
      if !bit then (true, it)
      else
        match BitReader.ReadBit it.br with
        | Except.error e => (false, { it with err := some e })
        | Except.ok (bit, br) =>
          let it := { it with br := br }
          if !bit then readValue it
          else
            match readWindow it with
            | (some e, it) => (false, { it with err := some e })
            | (none, it) => readValue it

/-- The method `Values`: the bit pattern of the current value. -/
def Values (it : MultiFloatDecoder) : Nat := it.val

/-- The method `Error`. -/
def Error (it : MultiFloatDecoder) : Option Tsm1.Error := it.err

/-- Calls `Next` up to `n` times, stopping at the first call that returns
`false`; gives the values read after each call that returned `true` and the
decoder after the last of these calls. -/
def nextValues : Nat → MultiFloatDecoder → List Nat × MultiFloatDecoder
  | 0, it => ([], it)
  | n + 1, it =>
    if (Next it).1 then
      ((Next it).2.Values :: (nextValues n (Next it).2).1, (nextValues n (Next it).2).2)
    else ([], it)

end MultiFloatDecoder

/-! ## Notions used to state and prove the properties -/

open MultiFloatEncoder MultiFloatDecoder

/-- All bits held by a writer: those of its buffer followed by the pending ones. -/
def allBits (w : BitWriter) : List Bool := bytesToBits w.buf ++ w.pending

/-- The leading count of `Write` after the mask and the clamp. -/
def clampLeading (n : Nat) : Nat := if n &&& 0x1F ≥ 32 then 31 else n &&& 0x1F

/-- The bits that `Write` appends for a value that is neither the first one nor
rejected: the record of `v` against the previous value and window of `s`. -/
def recordBits (s : MultiFloatEncoder) (v : Nat) : List Bool :=
  if v ^^^ s.val = 0 then [false]
  else if s.leading ≠ allOnes ∧ clampLeading (LeadingZeros64 (v ^^^ s.val)) ≥ s.leading ∧
      TrailingZeros64 (v ^^^ s.val) ≥ s.trailing then
    [true, false] ++ natToBits (64 - s.leading - s.trailing) ((v ^^^ s.val) >>> s.trailing)
  else
    [true, true] ++ natToBits 5 (clampLeading (LeadingZeros64 (v ^^^ s.val))) ++
      natToBits 6 (64 - clampLeading (LeadingZeros64 (v ^^^ s.val)) -
        TrailingZeros64 (v ^^^ s.val)) ++
      natToBits (64 - clampLeading (LeadingZeros64 (v ^^^ s.val)) -
        TrailingZeros64 (v ^^^ s.val)) ((v ^^^ s.val) >>> TrailingZeros64 (v ^^^ s.val))

/-- The decoder has read exactly what the encoder has written: same current
value, same window once the encoder has one, and no terminal flag. -/
def Synced (e : MultiFloatEncoder) (d : MultiFloatDecoder) : Prop :=
  d.first = false ∧ d.finished = false ∧ d.err = none ∧ d.val = e.val ∧
    (e.leading ≠ allOnes → d.leading = e.leading ∧ d.trailing = e.trailing)

/-- A value that `Write` accepts: a 64-bit pattern that is not a NaN. -/
def Valid (v : Nat) : Prop := v < two64 ∧ IsNaN v = false

/-- The encoder is in the middle of a stream of accepted values. -/
def Running (e : MultiFloatEncoder) : Prop :=
  e.first = false ∧ e.finished = false ∧ e.bw.pending.length < 8 ∧ Valid e.val

/-- The records that `Write` appends for a list of values. -/
def recordsBits : MultiFloatEncoder → List Nat → List Bool
  | _, [] => []
  | e, x :: xs => recordBits e x ++ recordsBits (e.Write x) xs

/-- The seed of the stream of a list of values: the first value, or the sentinel
for the empty list. -/
def seedOf : List Nat → Nat
  | [] => uvnan
  | x :: _ => x

/-- The bits of the stream of a list of values after the 64-bit seed: the records
of the later values and the end-of-stream record. -/
def tailBits (g : Nat) : List Nat → List Bool
  | [] => []
  | x :: xs =>
    recordsBits ((NewMultiFloatEncoder g).Write x) xs ++
      recordBits (((NewMultiFloatEncoder g).Write x).writeAll xs) uvnan

/-- The bytes and the error returned by `Bytes` after writing the values of
`xs` to a fresh encoder and calling `Flush`. -/
def encode (g : Nat) (xs : List Nat) : List Nat × Option Error :=
  (((NewMultiFloatEncoder g).writeAll xs).Flush).Bytes

/-- A call on an encoder that changes its state: `Write(v)` or `Flush()`. -/
inductive Call where
  | write (v : Nat)
  | flush
deriving DecidableEq, Repr

/-- The encoder after a sequence of calls. -/
def run (s : MultiFloatEncoder) : List Call → MultiFloatEncoder
  | [] => s
  | Call.write v :: cs => run (s.Write v) cs
  | Call.flush :: cs => run s.Flush cs

/-- The results of `n` successive calls of `Next`: for each call the returned
flag and what `Values()` and `Error()` return after it. -/
def trace : Nat → MultiFloatDecoder → List (Bool × Nat × Option Error)
  | 0, _ => []
  | n + 1, it => ((Next it).1, (Next it).2.Values, (Next it).2.Error) :: trace n (Next it).2

/-- The encoder with its sticky error erased. -/
def eraseErr (s : MultiFloatEncoder) : MultiFloatEncoder := { s with err := none }

/-- Some `Write` of a NaN comes before every `Flush` of the sequence. -/
def NaNBeforeFlush (cs : List Call) : Prop :=
  ∃ pre v post, cs = pre ++ Call.write v :: post ∧ IsNaN v = true ∧ Call.flush ∉ pre

/-- The bits that the call `Write(v)` appends to the bit stream of `s`: what the
writer holds after the call, less what it held before. -/
def writtenBits (s : MultiFloatEncoder) (v : Nat) : List Bool :=
  (allBits (s.Write v).bw).drop (allBits s.bw).length

/-- The bits of the stream written so far, after the header byte. -/
def streamBits (s : MultiFloatEncoder) : List Bool := (allBits s.bw).drop 8

/-- Every non-zero delta of the values `vs`, written in order after the value
`p`, has a stored leading count of at least `l` and a trailing count of at least
`t`: its significant bits lie inside the window `(l, t)`. -/
def FitsWindow (l t : Nat) : Nat → List Nat → Bool
  | _, [] => true
  | p, v :: vs =>
    (v ^^^ p == 0 || (decide (l ≤ clampLeading (LeadingZeros64 (v ^^^ p))) &&
      decide (t ≤ TrailingZeros64 (v ^^^ p)))) && FitsWindow l t v vs

/-- Every `Write` of the values `vs`, in order from the state `s`, appends the
single bit 0 (value unchanged) or a reuse-window record (control bits 1, 0 and
the significant bits of the window), and leaves the window as it is. -/
def ReuseOnly : MultiFloatEncoder → List Nat → Bool
  | _, [] => true
  | s, v :: vs =>
    (writtenBits s v == [false] ||
      writtenBits s v == [true, false] ++
        natToBits (64 - s.leading - s.trailing) ((v ^^^ s.val) >>> s.trailing)) &&
    (s.Write v).leading == s.leading && (s.Write v).trailing == s.trailing &&
    ReuseOnly (s.Write v) vs

/-- The width of the `ReadBits` call that `Next` makes for the significant
bits, when it makes one: `uint(64 - it.leading - it.trailing)` for the window
in force at that call (the one just read, after a new-window record). It follows
the control flow of `Next`. -/
def readWidth (it : MultiFloatDecoder) : Option Nat :=
  if it.err ≠ none ∨ it.finished then none
  else if it.first then none
  else
    match BitReader.ReadBit it.br with
    | Except.error _ => none
    | Except.ok (bit, br) =>
      if !bit then none
      else
        match BitReader.ReadBit br with
        | Except.error _ => none
        | Except.ok (bit, br) =>
          if !bit then some (sub64 (sub64 64 it.leading) it.trailing)
          else
            match readWindow { it with br := br } with
            | (some _, _) => none
            | (none, it) => some (sub64 (sub64 64 it.leading) it.trailing)

/-- The decoder after `n` calls of `Next`. -/
def nextN (n : Nat) (it : MultiFloatDecoder) : MultiFloatDecoder :=
  Nat.iterate (fun d => (Next d).2) n it

/-- What bounds the number of later `true` results of `Next`: the bits not yet
read, and one more while the seed has not been given out. -/
def budget (it : MultiFloatDecoder) : Nat := (if it.first then 1 else 0) + it.br.length

/-- The encoder holds a 64-bit value and its window is unset or has a leading
count of at most 31 and counts that leave at least one significant bit. -/
def WindowOK (s : MultiFloatEncoder) : Prop :=
  s.val < two64 ∧ (s.leading = allOnes ∨ (s.leading ≤ 31 ∧ s.leading + s.trailing ≤ 63))

/-- The decoder is stopped, or the width `64 - leading - trailing` of its window,
taken with 64-bit wrap-around, lies in `[1, 64]`. -/
def WidthOK (d : MultiFloatDecoder) : Prop :=
  (d.err ≠ none ∨ d.finished = true) ∨
    (1 ≤ sub64 (sub64 64 d.leading) d.trailing ∧ sub64 (sub64 64 d.leading) d.trailing ≤ 64)

/-! ## Bit-level lemmas -/

theorem natToBits_length (n u : Nat) : (natToBits n u).length = n := by
  induction n generalizing u with
  | zero => rfl
  | succ n ih => simp [natToBits, ih]

theorem bitsToNat_append_single (bs : List Bool) (b : Bool) :
    bitsToNat (bs ++ [b]) = 2 * bitsToNat bs + (if b then 1 else 0) := by
  simp [bitsToNat, List.foldl_append]

theorem bitsToNat_natToBits (n u : Nat) : bitsToNat (natToBits n u) = u % 2 ^ n := by
  induction n generalizing u with
  | zero => simp [natToBits, bitsToNat, Nat.mod_one]
  | succ n ih =>
    rw [natToBits, bitsToNat_append_single, ih, Nat.pow_succ, Nat.mul_comm (2 ^ n) 2, Nat.mod_mul]
    have h2 : u % 2 = 0 ∨ u % 2 = 1 := by omega
    rcases h2 with h | h
    · simp [h]
    · simp [h]; omega

theorem natToBits_bitsToNat (p : List Bool) : natToBits p.length (bitsToNat p) = p := by
  induction p using List.reverseRecOn with
  | nil => rfl
  | append_singleton bs b ih =>
    rw [bitsToNat_append_single, List.length_append, List.length_singleton, natToBits]
    cases b
    · have h1 : (2 * bitsToNat bs + if false = true then 1 else 0) / 2 = bitsToNat bs := by
        simp
      have h2 : (2 * bitsToNat bs + if false = true then 1 else 0) % 2 = 0 := by simp
      rw [h1, h2, ih]; simp
    · have h1 : (2 * bitsToNat bs + if true = true then 1 else 0) / 2 = bitsToNat bs := by
        simp; omega
      have h2 : (2 * bitsToNat bs + if true = true then 1 else 0) % 2 = 1 := by simp; omega
      rw [h1, h2, ih]; simp

theorem bytesToBits_append (xs ys : List Nat) :
    bytesToBits (xs ++ ys) = bytesToBits xs ++ bytesToBits ys := by
  induction xs with
  | nil => rfl
  | cons x xs ih => simp [bytesToBits, ih]

theorem bytesToBits_length (xs : List Nat) : (bytesToBits xs).length = 8 * xs.length := by
  induction xs with
  | nil => rfl
  | cons x xs ih => simp [bytesToBits, ih, natToBits_length]; omega

theorem bytesToBits_take (xs : List Nat) (j : Nat) :
    bytesToBits (xs.take j) = (bytesToBits xs).take (8 * j) := by
  induction xs generalizing j with
  | nil => simp [bytesToBits]
  | cons x xs ih =>
    cases j with
    | zero => simp [bytesToBits]
    | succ j =>
      have h8 : 8 * (j + 1) = (natToBits 8 x).length + 8 * j := by
        rw [natToBits_length]; omega
      rw [List.take_succ_cons, bytesToBits, bytesToBits, ih, h8, List.take_append]

theorem WriteBit_spec (w : BitWriter) (bit : Bool) (h : w.pending.length < 8) :
    allBits (BitWriter.WriteBit w bit) = allBits w ++ [bit] ∧
      (BitWriter.WriteBit w bit).pending.length < 8 := by
  unfold BitWriter.WriteBit allBits
  by_cases h8 : (w.pending ++ [bit]).length = 8
  · simp only [h8, if_true, bytesToBits_append, bytesToBits, List.append_nil]
    have := natToBits_bitsToNat (w.pending ++ [bit])
    rw [h8] at this
    rw [this]
    simp
  · simp only [h8, if_false]
    simp at h8 ⊢
    omega

theorem writeAll_spec (bs : List Bool) (w : BitWriter) (h : w.pending.length < 8) :
    allBits (BitWriter.writeAll w bs) = allBits w ++ bs ∧
      (BitWriter.writeAll w bs).pending.length < 8 := by
  induction bs generalizing w with
  | nil => simp [BitWriter.writeAll, h]
  | cons b bs ih =>
    have h1 := WriteBit_spec w b h
    have h2 := ih (BitWriter.WriteBit w b) h1.2
    simp only [BitWriter.writeAll, List.foldl_cons] at h2 ⊢
    rw [h2.1, h1.1]
    simp [h2.2]

theorem WriteBits_spec (w : BitWriter) (u : Nat) (n : Int) (h : w.pending.length < 8) :
    allBits (BitWriter.WriteBits w u n) = allBits w ++ natToBits n.toNat u ∧
      (BitWriter.WriteBits w u n).pending.length < 8 :=
  writeAll_spec _ w h

theorem Flush_spec (w : BitWriter) (h : w.pending.length < 8) :
    ∃ k, k < 8 ∧ allBits (BitWriter.Flush w false) = allBits w ++ List.replicate k false ∧
      (BitWriter.Flush w false).pending = [] := by
  unfold BitWriter.Flush
  by_cases hp : w.pending = []
  · exact ⟨0, by decide, by simp [hp], by simp [hp]⟩
  · simp only [hp, if_false]
    have hlen : 0 < w.pending.length := List.length_pos.mpr hp
    refine ⟨8 - w.pending.length, by omega, (writeAll_spec _ w h).1, ?_⟩
    have h1 := (writeAll_spec (List.replicate (8 - w.pending.length) false) w h)
    have h2 := congrArg List.length h1.1
    simp only [allBits, List.length_append, bytesToBits_length, List.length_replicate] at h2
    have h3 : (BitWriter.writeAll w (List.replicate (8 - w.pending.length) false)).pending.length = 0 := by
      have := h1.2
      omega
    exact List.length_eq_zero.mp h3

theorem ReadBits_natToBits (n u : Nat) (rest : List Bool) (hu : u < two64) :
    BitReader.ReadBits (natToBits n u ++ rest) n = Except.ok (u % 2 ^ n, rest) := by
  unfold BitReader.ReadBits
  have hl : ¬ (natToBits n u ++ rest).length < n := by
    simp [natToBits_length]
  rw [if_neg hl]
  have ht : (natToBits n u ++ rest).take n = natToBits n u := by
    rw [List.take_append_of_le_length (by simp [natToBits_length])]
    exact List.take_of_length_le (by simp [natToBits_length])
  have hd : (natToBits n u ++ rest).drop n = rest := by
    have := List.drop_left (natToBits n u) rest
    rwa [natToBits_length] at this
  rw [ht, hd, bitsToNat_natToBits]
  have : u % 2 ^ n % two64 = u % 2 ^ n :=
    Nat.mod_eq_of_lt (lt_of_le_of_lt (Nat.mod_le _ _) hu)
  rw [this]

/-! ## Reads are stable under extension of the stream -/

theorem ReadBits_append (bs ext rest : List Bool) (n v : Nat)
    (h : BitReader.ReadBits bs n = Except.ok (v, rest)) :
    BitReader.ReadBits (bs ++ ext) n = Except.ok (v, rest ++ ext) := by
  unfold BitReader.ReadBits at h ⊢
  by_cases hl : bs.length < n
  · simp [hl] at h
  · have hl2 : ¬ (bs ++ ext).length < n := by simp; omega
    simp only [hl, hl2, if_false, Except.ok.injEq, Prod.mk.injEq] at h ⊢
    have hn : n ≤ bs.length := by omega
    rw [List.take_append_of_le_length hn, List.drop_append_of_le_length hn, h.1, h.2]
    exact ⟨rfl, rfl⟩

theorem ReadBit_append (bs ext rest : List Bool) (v : Bool)
    (h : BitReader.ReadBit bs = Except.ok (v, rest)) :
    BitReader.ReadBit (bs ++ ext) = Except.ok (v, rest ++ ext) := by
  cases bs with
  | nil => simp [BitReader.ReadBit] at h
  | cons b bs =>
    simp only [BitReader.ReadBit, Except.ok.injEq, Prod.mk.injEq] at h
    simp [BitReader.ReadBit, h.1, h.2]

theorem readValue_append (val l t : Nat) (bs ext : List Bool) (b : List Nat)
    (first fin : Bool) (err : Option Error)
    (h : (readValue ⟨val, l, t, bs, b, first, fin, err⟩).2.err = none) :
    readValue ⟨val, l, t, bs ++ ext, b, first, fin, err⟩ =
      ((readValue ⟨val, l, t, bs, b, first, fin, err⟩).1,
        { (readValue ⟨val, l, t, bs, b, first, fin, err⟩).2 with
          br := (readValue ⟨val, l, t, bs, b, first, fin, err⟩).2.br ++ ext }) := by
  cases hr : BitReader.ReadBits bs (sub64 (sub64 64 l) t) with
  | error e => simp [readValue, hr] at h
  | ok p =>
    obtain ⟨v, rest⟩ := p
    have hr2 := ReadBits_append bs ext rest _ v hr
    simp only [readValue, hr, hr2]
    split <;> rfl

theorem readWindow_append (val l t : Nat) (bs ext : List Bool) (b : List Nat)
    (first fin : Bool) (err : Option Error)
    (h : (readWindow ⟨val, l, t, bs, b, first, fin, err⟩).1 = none) :
    readWindow ⟨val, l, t, bs ++ ext, b, first, fin, err⟩ =
      (none,
        { (readWindow ⟨val, l, t, bs, b, first, fin, err⟩).2 with
          br := (readWindow ⟨val, l, t, bs, b, first, fin, err⟩).2.br ++ ext }) := by
  cases hr : BitReader.ReadBits bs 5 with
  | error e => simp [readWindow, hr] at h
  | ok p =>
    obtain ⟨v, rest⟩ := p
    have hr2 := ReadBits_append bs ext rest _ v hr
    cases hs : BitReader.ReadBits rest 6 with
    | error e => simp [readWindow, hr, hs] at h
    | ok q =>
      obtain ⟨v', rest'⟩ := q
      have hs2 := ReadBits_append rest ext rest' _ v' hs
      simp only [readWindow, hr, hr2, hs, hs2]

theorem readValue_fields (d : MultiFloatDecoder) :
    ((readValue d).1 = true → (readValue d).2.err = d.err ∧
        (readValue d).2.finished = d.finished) ∧
      ((readValue d).1 = false → (readValue d).2.err ≠ none ∨
        (readValue d).2.finished = true) ∧
      (readValue d).2.first = d.first ∧ (readValue d).2.b = d.b ∧
      (readValue d).2.leading = d.leading ∧ (readValue d).2.trailing = d.trailing := by
  cases hr : BitReader.ReadBits d.br (sub64 (sub64 64 d.leading) d.trailing) with
  | error e => simp [readValue, hr]
  | ok p =>
    obtain ⟨v, rest⟩ := p
    simp only [readValue, hr]
    split <;> simp

theorem readWindow_fields (d : MultiFloatDecoder) :
    (readWindow d).2.err = d.err ∧ (readWindow d).2.finished = d.finished ∧
      (readWindow d).2.first = d.first ∧ (readWindow d).2.b = d.b ∧
      (readWindow d).2.val = d.val := by
  cases hr : BitReader.ReadBits d.br 5 with
  | error e => simp [readWindow, hr]
  | ok p =>
    obtain ⟨v, rest⟩ := p
    cases hs : BitReader.ReadBits rest 6 with
    | error e => simp [readWindow, hr, hs]
    | ok q =>
      obtain ⟨v', rest'⟩ := q
      simp [readWindow, hr, hs]

/-- After `Next` returned `false` the decoder holds an error or is finished. -/
theorem Next_false_terminal (d : MultiFloatDecoder) (h : (Next d).1 = false) :
    (Next d).2.err ≠ none ∨ (Next d).2.finished = true := by
  obtain ⟨val, l, t, br, b, first, fin, err⟩ := d
  by_cases h0 : err ≠ none ∨ fin = true
  · simp only [Next, h0, if_true]
  · cases first with
    | true =>
      by_cases h2 : val = uvnan
      · simp [Next, h0, h2]
      · simp [Next, h0, h2] at h
    | false =>
      have h1 : (false = true) = False := by simp
      cases hr : BitReader.ReadBit br with
      | error e => simp [Next, h0, h1, hr]
      | ok p =>
        obtain ⟨bit, rest⟩ := p
        cases bit with
        | false => simp [Next, h0, h1, hr] at h
        | true =>
          cases hs : BitReader.ReadBit rest with
          | error e => simp [Next, h0, h1, hr, hs]
          | ok q =>
            obtain ⟨bit2, rest2⟩ := q
            cases bit2 with
            | false =>
              simp only [Next, h0, h1, hr, hs, Bool.not_true, Bool.not_false, if_true, if_false,
                Bool.false_eq_true] at h ⊢
              exact (readValue_fields _).2.1 h
            | true =>
              cases hw : readWindow ⟨val, l, t, rest2, b, false, fin, err⟩ with
              | mk we wd =>
                simp only [Next, h0, h1, hr, hs, Bool.not_true, Bool.not_false, if_true, if_false,
                  Bool.false_eq_true, hw] at h ⊢
                cases we with
                | some e => simp
                | none =>
                  simp only at h ⊢
                  exact (readValue_fields _).2.1 h

theorem Next_append (val l t : Nat) (bs ext : List Bool) (b : List Nat)
    (first fin : Bool) (err : Option Error)
    (h : (Next ⟨val, l, t, bs, b, first, fin, err⟩).2.err = none) :
    Next ⟨val, l, t, bs ++ ext, b, first, fin, err⟩ =
      ((Next ⟨val, l, t, bs, b, first, fin, err⟩).1,
        { (Next ⟨val, l, t, bs, b, first, fin, err⟩).2 with
          br := (Next ⟨val, l, t, bs, b, first, fin, err⟩).2.br ++ ext }) := by
  by_cases h0 : err ≠ none ∨ fin = true
  · rcases h0 with h0 | h0
    · simp [Next, h0] at h
    · simp [Next, h0]
  · cases first with
    | true =>
      by_cases h2 : val = uvnan
      · simp [Next, h0, h2]
      · simp [Next, h0, h2]
    | false =>
      have h1 : (false = true) = False := by simp
      cases hr : BitReader.ReadBit bs with
      | error e => simp [Next, h0, h1, hr] at h
      | ok p =>
        obtain ⟨bit, rest⟩ := p
        have hr2 := ReadBit_append bs ext rest bit hr
        cases bit with
        | false => simp [Next, h0, h1, hr, hr2]
        | true =>
          cases hs : BitReader.ReadBit rest with
          | error e => simp [Next, h0, h1, hr, hs] at h
          | ok q =>
            obtain ⟨bit2, rest2⟩ := q
            have hs2 := ReadBit_append rest ext rest2 bit2 hs
            cases bit2 with
            | false =>
              simp only [Next, h0, h1, hr, hs, hr2, hs2, Bool.not_true, Bool.not_false, if_true,
                if_false, Bool.false_eq_true] at h ⊢
              exact readValue_append _ _ _ _ _ _ _ _ _ h
            | true =>
              cases hw : readWindow ⟨val, l, t, rest2, b, false, fin, err⟩ with
              | mk we wd =>
                cases we with
                | some e =>
                  simp [Next, h0, h1, hr, hs, hw] at h
                | none =>
                  have hw2 := readWindow_append val l t rest2 ext b false fin err (by rw [hw])
                  rw [hw] at hw2
                  obtain ⟨wv, wl, wt, wbr, wb, wf, wfin, werr⟩ := wd
                  simp only [Next, h0, h1, hr, hs, hr2, hs2, Bool.not_true, Bool.not_false,
                    if_true, if_false, Bool.false_eq_true, hw, hw2] at h ⊢
                  exact readValue_append _ _ _ _ _ _ _ _ _ h

/-! ## Arithmetic of deltas -/

theorem ctz_dvd (w x : Nat) : 2 ^ ctz w x ∣ x := by
  induction w generalizing x with
  | zero => simp [ctz]
  | succ w ih =>
    unfold ctz
    by_cases h : x % 2 = 1
    · simp [h]
    · simp only [h, if_false]
      have h0 : x % 2 = 0 := by omega
      obtain ⟨k, hk⟩ := ih (x / 2)
      refine ⟨k, ?_⟩
      have hx : x = 2 * (x / 2) := by omega
      rw [Nat.pow_succ, Nat.mul_assoc, Nat.mul_comm 2 k, ← Nat.mul_assoc, ← hk]
      omega

theorem ctz_le (w x : Nat) : ctz w x ≤ w := by
  induction w generalizing x with
  | zero => simp [ctz]
  | succ w ih =>
    unfold ctz
    split
    · omega
    · have := ih (x / 2); omega

theorem bitLen_le (w x : Nat) : bitLen w x ≤ w := by
  induction w generalizing x with
  | zero => simp [bitLen]
  | succ w ih =>
    unfold bitLen
    split
    · omega
    · have := ih (x / 2); omega

theorem lt_pow_bitLen (w x : Nat) (hx : x < 2 ^ w) : x < 2 ^ bitLen w x := by
  induction w generalizing x with
  | zero => simpa [bitLen] using hx
  | succ w ih =>
    unfold bitLen
    by_cases h0 : x = 0
    · simp [h0]
    · rw [if_neg h0]
      have h2 : x / 2 < 2 ^ w := by
        rw [Nat.pow_succ] at hx
        omega
      have h3 := ih (x / 2) h2
      rw [Nat.pow_succ]
      omega

theorem lt_pow_leading (x : Nat) (hx : x < two64) : x < 2 ^ (64 - LeadingZeros64 x) := by
  have h := bitLen_le 64 x
  have : 64 - LeadingZeros64 x = bitLen 64 x := by unfold LeadingZeros64; omega
  rw [this]
  exact lt_pow_bitLen 64 x hx

theorem leading_add_trailing (x : Nat) (hx : x < two64) (h0 : x ≠ 0) :
    LeadingZeros64 x + TrailingZeros64 x ≤ 63 := by
  have hs := bitLen_le 64 x
  have hd : 2 ^ TrailingZeros64 x ≤ x :=
    Nat.le_of_dvd (Nat.pos_of_ne_zero h0) (ctz_dvd 64 x)
  have hlt : 2 ^ TrailingZeros64 x < 2 ^ bitLen 64 x :=
    lt_of_le_of_lt hd (lt_pow_bitLen 64 x hx)
  have : TrailingZeros64 x < bitLen 64 x := (Nat.pow_lt_pow_iff_right (by decide)).mp hlt
  unfold LeadingZeros64
  omega

theorem clampLeading_le (n : Nat) (h : n ≤ 64) : clampLeading n ≤ n ∧ clampLeading n ≤ 31 := by
  unfold clampLeading
  interval_cases n <;> decide

theorem sub64_small (a b : Nat) (ha : a ≤ 64) (hb : b ≤ a) : sub64 a b = a - b := by
  unfold sub64 two64
  have : b % 2 ^ 64 = b := Nat.mod_eq_of_lt (by omega)
  rw [this]
  omega

/-- A delta is recovered from its significant bits: with `l` leading and `t`
trailing zero bits accounted for, masking `d >>> t` to `64 - l - t` bits and
shifting back gives `d`. -/
theorem shl64_shr (d l t : Nat) (hd : d < 2 ^ (64 - l)) (ht : 2 ^ t ∣ d) (hlt : l + t ≤ 63) :
    shl64 ((d >>> t) % 2 ^ (64 - l - t)) t = d := by
  have h1 : d >>> t = d / 2 ^ t := Nat.shiftRight_eq_div_pow d t
  have h2 : d / 2 ^ t < 2 ^ (64 - l - t) := by
    apply Nat.div_lt_of_lt_mul
    rw [← Nat.pow_add]
    have : t + (64 - l - t) = 64 - l := by omega
    rw [this]; exact hd
  have h3 : d < two64 := lt_of_lt_of_le hd (Nat.pow_le_pow_right (by decide) (by omega))
  unfold shl64
  rw [if_neg (by omega), h1, Nat.mod_eq_of_lt h2, Nat.shiftLeft_eq, Nat.div_mul_cancel ht,
    Nat.mod_eq_of_lt h3]

theorem xor_delta (v pv : Nat) : pv ^^^ (v ^^^ pv) = v := by
  rw [Nat.xor_comm v pv, ← Nat.xor_assoc, Nat.xor_self, Nat.zero_xor]

theorem xor_eq_zero_iff (v pv : Nat) : v ^^^ pv = 0 ↔ v = pv := Nat.xor_eq_zero

theorem xor_lt (v pv : Nat) (hv : v < two64) (hp : pv < two64) : v ^^^ pv < two64 :=
  Nat.xor_lt_two_pow hv hp

theorem delta_bounds (v pv : Nat) (hv : v < two64) (hp : pv < two64) (hne : v ^^^ pv ≠ 0) :
    clampLeading (LeadingZeros64 (v ^^^ pv)) ≤ LeadingZeros64 (v ^^^ pv) ∧
      clampLeading (LeadingZeros64 (v ^^^ pv)) ≤ 31 ∧
      LeadingZeros64 (v ^^^ pv) + TrailingZeros64 (v ^^^ pv) ≤ 63 := by
  have h1 := clampLeading_le (LeadingZeros64 (v ^^^ pv)) (Nat.sub_le _ _)
  exact ⟨h1.1, h1.2, leading_add_trailing _ (xor_lt v pv hv hp) hne⟩

theorem Write_first (s : MultiFloatEncoder) (v : Nat) (hfirst : s.first = true)
    (hnan : (IsNaN v && !s.finished) = false) (hp : s.bw.pending.length < 8) :
    allBits (s.Write v).bw = allBits s.bw ++ natToBits 64 v ∧
      (s.Write v).bw.pending.length < 8 ∧ (s.Write v).val = v ∧ (s.Write v).first = false ∧
      (s.Write v).finished = s.finished ∧ (s.Write v).err = s.err ∧
      (s.Write v).leading = s.leading ∧ (s.Write v).trailing = s.trailing := by
  have h := WriteBits_spec s.bw v 64 hp
  have h64 : (64 : Int).toNat = 64 := by decide
  rw [h64] at h
  have e : s.Write v = { s with val := v, first := false, bw := s.bw.WriteBits v 64 } := by
    simp only [Write, hnan, hfirst, if_true, Bool.false_eq_true, if_false]
  rw [e]
  dsimp only
  exact ⟨h.1, h.2, rfl, rfl, rfl, rfl, rfl, rfl⟩

theorem Write_eq (s : MultiFloatEncoder) (v : Nat) :
    s.Write v =
      if (IsNaN v && !s.finished) = true then { s with err := some Error.unsupportedValue }
      else if s.first = true then { s with val := v, first := false, bw := s.bw.WriteBits v 64 }
      else if v ^^^ s.val = 0 then { s with bw := s.bw.WriteBit false, val := v }
      else if s.leading ≠ allOnes ∧ clampLeading (LeadingZeros64 (v ^^^ s.val)) ≥ s.leading ∧
          TrailingZeros64 (v ^^^ s.val) ≥ s.trailing then
        { s with
          bw := ((s.bw.WriteBit true).WriteBit false).WriteBits ((v ^^^ s.val) >>> s.trailing)
            (64 - (s.leading : Int) - (s.trailing : Int)),
          val := v }
      else
        { s with
          leading := clampLeading (LeadingZeros64 (v ^^^ s.val)),
          trailing := TrailingZeros64 (v ^^^ s.val),
          bw := ((((s.bw.WriteBit true).WriteBit true).WriteBits
            (clampLeading (LeadingZeros64 (v ^^^ s.val))) 5).WriteBits
            (sub64 (sub64 64 (clampLeading (LeadingZeros64 (v ^^^ s.val))))
              (TrailingZeros64 (v ^^^ s.val))) 6).WriteBits
            ((v ^^^ s.val) >>> TrailingZeros64 (v ^^^ s.val))
            ((sub64 (sub64 64 (clampLeading (LeadingZeros64 (v ^^^ s.val))))
              (TrailingZeros64 (v ^^^ s.val)) : Nat) : Int),
          val := v } := rfl

theorem Write_record (s : MultiFloatEncoder) (v : Nat) (hfirst : s.first = false)
    (hnan : (IsNaN v && !s.finished) = false) (hp : s.bw.pending.length < 8)
    (hv : v < two64) (hval : s.val < two64) :
    allBits (s.Write v).bw = allBits s.bw ++ recordBits s v ∧
      (s.Write v).bw.pending.length < 8 ∧ (s.Write v).val = v ∧ (s.Write v).first = false ∧
      (s.Write v).finished = s.finished ∧ (s.Write v).err = s.err := by
  have c1 : ¬ (IsNaN v && !s.finished) = true := by rw [hnan]; decide
  have c2 : ¬ s.first = true := by rw [hfirst]; decide
  by_cases hz : v ^^^ s.val = 0
  · have h := WriteBit_spec s.bw false hp
    rw [Write_eq, if_neg c1, if_neg c2, if_pos hz]
    have hr : recordBits s v = [false] := by rw [recordBits, if_pos hz]
    rw [hr]
    exact ⟨h.1, h.2, rfl, hfirst, rfl, rfl⟩
  · have hb := delta_bounds v s.val hv hval hz
    have h1 := WriteBit_spec s.bw true hp
    by_cases hw : s.leading ≠ allOnes ∧
        clampLeading (LeadingZeros64 (v ^^^ s.val)) ≥ s.leading ∧
        TrailingZeros64 (v ^^^ s.val) ≥ s.trailing
    · have h2 := WriteBit_spec _ false h1.2
      have hwidth : ((64 : Int) - (s.leading : Int) - (s.trailing : Int)).toNat =
          64 - s.leading - s.trailing := by omega
      have h3 := WriteBits_spec _ ((v ^^^ s.val) >>> s.trailing)
        ((64 : Int) - (s.leading : Int) - (s.trailing : Int)) h2.2
      rw [hwidth] at h3
      rw [Write_eq, if_neg c1, if_neg c2, if_neg hz, if_pos hw]
      have hr : recordBits s v = [true, false] ++
          natToBits (64 - s.leading - s.trailing) ((v ^^^ s.val) >>> s.trailing) := by
        rw [recordBits, if_neg hz, if_pos hw]
      rw [hr]
      refine ⟨?_, h3.2, rfl, hfirst, rfl, rfl⟩
      dsimp only
      rw [h3.1, h2.1, h1.1]
      simp
    · have h2 := WriteBit_spec _ true h1.2
      have hs : sub64 (sub64 64 (clampLeading (LeadingZeros64 (v ^^^ s.val))))
          (TrailingZeros64 (v ^^^ s.val)) =
          64 - clampLeading (LeadingZeros64 (v ^^^ s.val)) - TrailingZeros64 (v ^^^ s.val) := by
        rw [sub64_small 64 _ (le_refl _) (by omega), sub64_small _ _ (by omega) (by omega)]
      have h3 := WriteBits_spec _ (clampLeading (LeadingZeros64 (v ^^^ s.val))) 5 h2.2
      have h4 := WriteBits_spec _ (64 - clampLeading (LeadingZeros64 (v ^^^ s.val)) -
        TrailingZeros64 (v ^^^ s.val)) 6 h3.2
      have h5 := WriteBits_spec _ ((v ^^^ s.val) >>> TrailingZeros64 (v ^^^ s.val))
        ((64 - clampLeading (LeadingZeros64 (v ^^^ s.val)) -
          TrailingZeros64 (v ^^^ s.val) : Nat) : Int) h4.2
      have t5 : (5 : Int).toNat = 5 := by decide
      have t6 : (6 : Int).toNat = 6 := by decide
      rw [t5] at h3
      rw [t6] at h4
      rw [Int.toNat_ofNat] at h5
      rw [Write_eq, if_neg c1, if_neg c2, if_neg hz, if_neg hw, hs]
      have hr : recordBits s v = [true, true] ++
          natToBits 5 (clampLeading (LeadingZeros64 (v ^^^ s.val))) ++
          natToBits 6 (64 - clampLeading (LeadingZeros64 (v ^^^ s.val)) -
            TrailingZeros64 (v ^^^ s.val)) ++
          natToBits (64 - clampLeading (LeadingZeros64 (v ^^^ s.val)) -
            TrailingZeros64 (v ^^^ s.val))
            ((v ^^^ s.val) >>> TrailingZeros64 (v ^^^ s.val)) := by
        rw [recordBits, if_neg hz, if_neg hw]
      rw [hr]
      refine ⟨?_, h5.2, rfl, hfirst, rfl, rfl⟩
      dsimp only
      rw [h5.1, h4.1, h3.1, h2.1, h1.1]
      simp

/-! ## Decoding one record -/

theorem readValue_record (val l t delta : Nat) (rest : List Bool) (b : List Nat)
    (first fin : Bool) (err : Option Error)
    (hd : delta < 2 ^ (64 - l)) (ht : 2 ^ t ∣ delta) (hlt : l + t ≤ 63) :
    readValue ⟨val, l, t, natToBits (64 - l - t) (delta >>> t) ++ rest, b, first, fin, err⟩ =
      if val ^^^ delta = uvnan then (false, ⟨val, l, t, rest, b, first, true, err⟩)
      else (true, ⟨val ^^^ delta, l, t, rest, b, first, fin, err⟩) := by
  have hs : sub64 (sub64 64 l) t = 64 - l - t := by
    rw [sub64_small 64 _ (le_refl _) (by omega), sub64_small _ _ (by omega) (by omega)]
  have hlt64 : delta >>> t < two64 := by
    rw [Nat.shiftRight_eq_div_pow]
    have h3 : delta < two64 := lt_of_lt_of_le hd (Nat.pow_le_pow_right (by decide) (by omega))
    exact lt_of_le_of_lt (Nat.div_le_self _ _) h3
  have hr := ReadBits_natToBits (64 - l - t) (delta >>> t) rest hlt64
  simp only [readValue, hs, hr, shl64_shr delta l t hd ht hlt]

theorem readWindow_record (val l t L T : Nat) (rest : List Bool) (b : List Nat)
    (first fin : Bool) (err : Option Error) (hL : L ≤ 31) (hLT : L + T ≤ 63) :
    readWindow ⟨val, l, t, natToBits 5 L ++ natToBits 6 (64 - L - T) ++ rest, b, first, fin, err⟩ =
      (none, ⟨val, L, T, rest, b, first, fin, err⟩) := by
  have h5 := ReadBits_natToBits 5 L (natToBits 6 (64 - L - T) ++ rest)
    (by unfold two64; omega)
  have h6 := ReadBits_natToBits 6 (64 - L - T) rest (by unfold two64; omega)
  have hL5 : L % 2 ^ 5 = L := Nat.mod_eq_of_lt (by omega)
  rw [hL5] at h5
  have hm : (if (64 - L - T) % 2 ^ 6 = 0 then 64 else (64 - L - T) % 2 ^ 6) = 64 - L - T := by
    split <;> omega
  have hs : sub64 (sub64 64 L) (64 - L - T) = T := by
    rw [sub64_small 64 _ (le_refl _) (by omega), sub64_small _ _ (by omega) (by omega)]
    omega
  simp only [readWindow, List.append_assoc, h5, h6, hm, hs]

theorem Next_unchanged (val l t : Nat) (rest : List Bool) (b : List Nat) :
    Next ⟨val, l, t, [false] ++ rest, b, false, false, none⟩ =
      (true, ⟨val, l, t, rest, b, false, false, none⟩) := by
  simp [Next, BitReader.ReadBit]

theorem Next_reuse (val l t delta : Nat) (rest : List Bool) (b : List Nat)
    (hd : delta < 2 ^ (64 - l)) (ht : 2 ^ t ∣ delta) (hlt : l + t ≤ 63) :
    Next ⟨val, l, t, [true, false] ++ natToBits (64 - l - t) (delta >>> t) ++ rest, b,
        false, false, none⟩ =
      if val ^^^ delta = uvnan then (false, ⟨val, l, t, rest, b, false, true, none⟩)
      else (true, ⟨val ^^^ delta, l, t, rest, b, false, false, none⟩) := by
  have h := readValue_record val l t delta rest b false false none hd ht hlt
  simp only [Next, BitReader.ReadBit, List.cons_append, List.nil_append, List.append_assoc]
  simpa using h

theorem Next_window (val l t L T delta : Nat) (rest : List Bool) (b : List Nat)
    (hL : L ≤ 31) (hd : delta < 2 ^ (64 - L)) (ht : 2 ^ T ∣ delta) (hlt : L + T ≤ 63) :
    Next ⟨val, l, t, [true, true] ++ natToBits 5 L ++ natToBits 6 (64 - L - T) ++
        natToBits (64 - L - T) (delta >>> T) ++ rest, b, false, false, none⟩ =
      if val ^^^ delta = uvnan then (false, ⟨val, L, T, rest, b, false, true, none⟩)
      else (true, ⟨val ^^^ delta, L, T, rest, b, false, false, none⟩) := by
  have hw := readWindow_record val l t L T (natToBits (64 - L - T) (delta >>> T) ++ rest) b
    false false none hL hlt
  have h := readValue_record val L T delta rest b false false none hd ht hlt
  simp only [List.append_assoc] at hw
  simp only [Next, BitReader.ReadBit, List.cons_append, List.nil_append, List.append_assoc]
  simp [hw, h]

theorem Next_recordBits (e : MultiFloatEncoder) (d : MultiFloatDecoder) (v : Nat)
    (rest : List Bool) (he : e.first = false) (hnan : (IsNaN v && !e.finished) = false)
    (hv : v < two64) (hval : e.val < two64) (hs : Synced e d)
    (hbr : d.br = recordBits e v ++ rest) :
    (Next d).2.br = rest ∧ (Next d).2.b = d.b ∧ (Next d).2.first = false ∧
      (Next d).2.err = none ∧
      ((e.Write v).leading ≠ allOnes → (Next d).2.leading = (e.Write v).leading ∧
        (Next d).2.trailing = (e.Write v).trailing) ∧
      ((v = e.val ∨ v ≠ uvnan) → (Next d).1 = true ∧ (Next d).2.val = v ∧
        (Next d).2.finished = false) ∧
      ((v ≠ e.val ∧ v = uvnan) → (Next d).1 = false ∧ (Next d).2.val = e.val ∧
        (Next d).2.finished = true) := by
  obtain ⟨dval, dl, dt, dbr, db, dfirst, dfin, derr⟩ := d
  obtain ⟨h1, h2, h3, h4, h5⟩ := hs
  simp only at h1 h2 h3 h4 h5 hbr
  subst h1 h2 h3 h4 hbr
  have c1 : ¬ (IsNaN v && !e.finished) = true := by rw [hnan]; decide
  have c2 : ¬ e.first = true := by rw [he]; decide
  by_cases hz : v ^^^ e.val = 0
  · have hve : v = e.val := (xor_eq_zero_iff v e.val).mp hz
    have hr : recordBits e v = [false] := by rw [recordBits, if_pos hz]
    rw [hr, Next_unchanged, Write_eq, if_neg c1, if_neg c2, if_pos hz]
    refine ⟨rfl, rfl, rfl, rfl, h5, fun _ => ⟨rfl, hve.symm, rfl⟩, fun h => absurd hve h.1⟩
  · have hve : v ≠ e.val := fun h => hz ((xor_eq_zero_iff v e.val).mpr h)
    have hb := delta_bounds v e.val hv hval hz
    have hdl := lt_pow_leading (v ^^^ e.val) (xor_lt v e.val hv hval)
    have hdv : 2 ^ TrailingZeros64 (v ^^^ e.val) ∣ v ^^^ e.val := ctz_dvd 64 _
    have hx : e.val ^^^ (v ^^^ e.val) = v := xor_delta v e.val
    by_cases hw : e.leading ≠ allOnes ∧
        clampLeading (LeadingZeros64 (v ^^^ e.val)) ≥ e.leading ∧
        TrailingZeros64 (v ^^^ e.val) ≥ e.trailing
    · have hr : recordBits e v = [true, false] ++
          natToBits (64 - e.leading - e.trailing) ((v ^^^ e.val) >>> e.trailing) := by
        rw [recordBits, if_neg hz, if_pos hw]
      obtain ⟨hl, ht⟩ := h5 hw.1
      subst hl ht
      have hd1 : v ^^^ e.val < 2 ^ (64 - e.leading) :=
        lt_of_lt_of_le hdl (Nat.pow_le_pow_right (by decide) (by omega))
      have hd2 : 2 ^ e.trailing ∣ v ^^^ e.val :=
        dvd_trans (Nat.pow_dvd_pow 2 hw.2.2) hdv
      rw [hr, Next_reuse e.val e.leading e.trailing (v ^^^ e.val) rest db hd1 hd2 (by omega),
        hx, Write_eq, if_neg c1, if_neg c2, if_neg hz, if_pos hw]
      by_cases hu : v = uvnan
      · rw [if_pos hu]
        exact ⟨rfl, rfl, rfl, rfl, fun _ => ⟨rfl, rfl⟩,
          fun h => absurd hu (h.resolve_left hve), fun _ => ⟨rfl, rfl, rfl⟩⟩
      · rw [if_neg hu]
        exact ⟨rfl, rfl, rfl, rfl, fun _ => ⟨rfl, rfl⟩,
          fun _ => ⟨rfl, rfl, rfl⟩, fun h => absurd h.2 hu⟩
    · have hr : recordBits e v = [true, true] ++
          natToBits 5 (clampLeading (LeadingZeros64 (v ^^^ e.val))) ++
          natToBits 6 (64 - clampLeading (LeadingZeros64 (v ^^^ e.val)) -
            TrailingZeros64 (v ^^^ e.val)) ++
          natToBits (64 - clampLeading (LeadingZeros64 (v ^^^ e.val)) -
            TrailingZeros64 (v ^^^ e.val))
            ((v ^^^ e.val) >>> TrailingZeros64 (v ^^^ e.val)) := by
        rw [recordBits, if_neg hz, if_neg hw]
      have hd1 : v ^^^ e.val < 2 ^ (64 - clampLeading (LeadingZeros64 (v ^^^ e.val))) :=
        lt_of_lt_of_le hdl (Nat.pow_le_pow_right (by decide) (by omega))
      rw [hr, Next_window e.val dl dt _ _ (v ^^^ e.val) rest db hb.2.1 hd1 hdv (by omega),
        hx, Write_eq, if_neg c1, if_neg c2, if_neg hz, if_neg hw]
      by_cases hu : v = uvnan
      · rw [if_pos hu]
        exact ⟨rfl, rfl, rfl, rfl, fun _ => ⟨rfl, rfl⟩,
          fun h => absurd hu (h.resolve_left hve), fun _ => ⟨rfl, rfl, rfl⟩⟩
      · rw [if_neg hu]
        exact ⟨rfl, rfl, rfl, rfl, fun _ => ⟨rfl, rfl⟩,
          fun _ => ⟨rfl, rfl, rfl⟩, fun h => absurd h.2 hu⟩

theorem IsNaN_uvnan : IsNaN uvnan = true := by decide

theorem Valid.ne_uvnan {v : Nat} (h : Valid v) : v ≠ uvnan := by
  intro hv
  have := h.2
  rw [hv, IsNaN_uvnan] at this
  exact Bool.noConfusion this

theorem Valid.accepted {v : Nat} (h : Valid v) (fin : Bool) : (IsNaN v && !fin) = false := by
  rw [h.2]; rfl

theorem Running.write_step {e : MultiFloatEncoder} (he : Running e) {v : Nat} (hv : Valid v) :
    Running (e.Write v) ∧ (e.Write v).err = e.err ∧
      allBits (e.Write v).bw = allBits e.bw ++ recordBits e v := by
  obtain ⟨h1, h2, h3, h4⟩ := he
  have h := Write_record e v h1 (hv.accepted _) h3 hv.1 h4.1
  obtain ⟨a, b, c, d, f, g⟩ := h
  refine ⟨⟨d, by rw [f, h2], b, by rw [c]; exact hv⟩, g, a⟩

theorem writeAll_records (xs : List Nat) (e : MultiFloatEncoder) (he : Running e)
    (hx : ∀ x ∈ xs, Valid x) :
    Running (e.writeAll xs) ∧ (e.writeAll xs).err = e.err ∧
      allBits (e.writeAll xs).bw = allBits e.bw ++ recordsBits e xs := by
  induction xs generalizing e with
  | nil => exact ⟨he, rfl, by simp [MultiFloatEncoder.writeAll, recordsBits]⟩
  | cons x xs ih =>
    have h1 := he.write_step (hx x (List.mem_cons_self x xs))
    have h2 := ih (e.Write x) h1.1 (fun y hy => hx y (List.mem_cons_of_mem x hy))
    have e1 : e.writeAll (x :: xs) = (e.Write x).writeAll xs := rfl
    rw [e1, recordsBits, h2.2.2, h1.2.2, h2.2.1, h1.2.1]
    exact ⟨h2.1, rfl, by simp⟩

theorem nextValues_succ_true (n : Nat) (d : MultiFloatDecoder) (h : (Next d).1 = true) :
    nextValues (n + 1) d =
      ((Next d).2.Values :: (nextValues n (Next d).2).1, (nextValues n (Next d).2).2) := by
  rw [nextValues, if_pos h]

theorem decode_records (xs : List Nat) (e : MultiFloatEncoder) (d : MultiFloatDecoder)
    (rest : List Bool) (he : Running e) (hx : ∀ x ∈ xs, Valid x) (hs : Synced e d)
    (hbr : d.br = recordsBits e xs ++ rest) :
    (nextValues xs.length d).1 = xs ∧ Synced (e.writeAll xs) (nextValues xs.length d).2 ∧
      (nextValues xs.length d).2.br = rest ∧ (nextValues xs.length d).2.b = d.b := by
  induction xs generalizing e d with
  | nil =>
    simp only [recordsBits, List.nil_append] at hbr
    exact ⟨rfl, hs, hbr, rfl⟩
  | cons x xs ih =>
    have hxv := hx x (List.mem_cons_self x xs)
    rw [recordsBits, List.append_assoc] at hbr
    have hn := Next_recordBits e d x _ he.1 (hxv.accepted _) hxv.1 he.2.2.2.1 hs hbr
    obtain ⟨n1, n2, n3, n4, n5, n6, _⟩ := hn
    obtain ⟨n6a, n6b, n6c⟩ := n6 (Or.inr hxv.ne_uvnan)
    have hrun := he.write_step hxv
    have hs' : Synced (e.Write x) (Next d).2 :=
      ⟨n3, n6c, n4, by rw [n6b, (Write_record e x he.1 (hxv.accepted _) he.2.2.1 hxv.1
        he.2.2.2.1).2.2.1], n5⟩
    have h2 := ih (e.Write x) (Next d).2 hrun.1
      (fun y hy => hx y (List.mem_cons_of_mem x hy)) hs' n1
    have e1 : e.writeAll (x :: xs) = (e.Write x).writeAll xs := rfl
    rw [List.length_cons, nextValues_succ_true _ _ n6a, e1]
    refine ⟨?_, h2.2.1, h2.2.2.1, by rw [h2.2.2.2, n2]⟩
    show (Next d).2.Values :: _ = x :: xs
    rw [h2.1]
    exact congrArg (· :: xs) n6b

/-- A call of `Next` that returns `true` leaves no error and no terminal flag. -/
theorem Next_true_fields (d : MultiFloatDecoder) (h : (Next d).1 = true) :
    (Next d).2.err = none ∧ (Next d).2.finished = false ∧ (Next d).2.first = false ∧
      (Next d).2.b = d.b := by
  obtain ⟨val, l, t, br, b, first, fin, err⟩ := d
  by_cases h0 : err ≠ none ∨ fin = true
  · simp [Next, h0] at h
  · have he : err = none := by
      by_contra hc; exact h0 (Or.inl hc)
    have hf : fin = false := by
      cases fin
      · rfl
      · exact absurd (Or.inr rfl) h0
    subst he hf
    cases first with
    | true =>
      by_cases h2 : val = uvnan
      · simp [Next, h2] at h
      · simp [Next, h2]
    | false =>
      cases hr : BitReader.ReadBit br with
      | error e => simp [Next, hr] at h
      | ok p =>
        obtain ⟨bit, rest⟩ := p
        cases bit with
        | false => simp [Next, hr]
        | true =>
          cases hs : BitReader.ReadBit rest with
          | error e => simp [Next, hr, hs] at h
          | ok q =>
            obtain ⟨bit2, rest2⟩ := q
            cases bit2 with
            | false =>
              have hN : Next ⟨val, l, t, br, b, false, false, none⟩ =
                  readValue ⟨val, l, t, rest2, b, false, false, none⟩ := by
                simp [Next, hr, hs]
              rw [hN] at h ⊢
              have hf := readValue_fields ⟨val, l, t, rest2, b, false, false, none⟩
              exact ⟨(hf.1 h).1, (hf.1 h).2, hf.2.2.1, hf.2.2.2.1⟩
            | true =>
              cases hw : readWindow ⟨val, l, t, rest2, b, false, false, none⟩ with
              | mk we wd =>
                have hwf := readWindow_fields ⟨val, l, t, rest2, b, false, false, none⟩
                rw [hw] at hwf
                cases we with
                | some e => simp [Next, hr, hs, hw] at h
                | none =>
                  have hN : Next ⟨val, l, t, br, b, false, false, none⟩ = readValue wd := by
                    simp [Next, hr, hs, hw]
                  rw [hN] at h ⊢
                  simp only at hwf
                  have hf := readValue_fields wd
                  exact ⟨by rw [(hf.1 h).1, hwf.1], by rw [(hf.1 h).2, hwf.2.1],
                    by rw [hf.2.2.1, hwf.2.2.1], by rw [hf.2.2.2.1, hwf.2.2.2.1]⟩

/-- A record cut short makes `Next` fail with an error. -/
theorem cut_record (e : MultiFloatEncoder) (d : MultiFloatDecoder) (v m : Nat)
    (he : e.first = false) (hnan : (IsNaN v && !e.finished) = false)
    (hv : v < two64) (hval : e.val < two64) (hs : Synced e d)
    (hm : m < (recordBits e v).length) (hbr : d.br = (recordBits e v).take m) :
    (Next d).1 = false ∧ (Next d).2.err ≠ none := by
  have herr : (Next d).2.err ≠ none := by
    intro hnone
    obtain ⟨dval, dl, dt, dbr, db, dfirst, dfin, derr⟩ := d
    simp only at hbr
    subst hbr
    have ha := Next_append dval dl dt ((recordBits e v).take m) ((recordBits e v).drop m)
      db dfirst dfin derr hnone
    rw [List.take_append_drop] at ha
    have hfull := Next_recordBits e ⟨dval, dl, dt, recordBits e v, db, dfirst, dfin, derr⟩ v []
      he hnan hv hval hs (by simp)
    have hbr2 := hfull.1
    rw [ha] at hbr2
    simp only [List.append_eq_nil] at hbr2
    have hl := congrArg List.length hbr2.2
    simp only [List.length_drop, List.length_nil] at hl
    omega
  refine ⟨?_, herr⟩
  cases hb : (Next d).1 with
  | false => rfl
  | true => exact absurd (Next_true_fields d hb).1 herr

theorem Flush_eq (e : MultiFloatEncoder) (h : e.finished = false) :
    e.Flush = { Write { e with finished := true } NaN with
      bw := (Write { e with finished := true } NaN).bw.Flush false } := by
  simp [MultiFloatEncoder.Flush, h]

theorem uvnan_lt : uvnan < two64 := by decide

theorem seedOf_lt (xs : List Nat) (hx : ∀ x ∈ xs, Valid x) : seedOf xs < two64 := by
  cases xs with
  | nil => exact uvnan_lt
  | cons x xs => exact (hx x (List.mem_cons_self x xs)).1

/-- The encoder after the first accepted value. -/
theorem Write_fresh (g x : Nat) (hx : Valid x) :
    Running ((NewMultiFloatEncoder g).Write x) ∧
      ((NewMultiFloatEncoder g).Write x).err = none ∧
      ((NewMultiFloatEncoder g).Write x).val = x ∧
      ((NewMultiFloatEncoder g).Write x).leading = allOnes ∧
      allBits ((NewMultiFloatEncoder g).Write x).bw = natToBits 8 (g <<< 4) ++ natToBits 64 x := by
  have h := Write_first (NewMultiFloatEncoder g) x rfl (hx.accepted _)
    (by simp [NewMultiFloatEncoder])
  obtain ⟨a, b, c, d, e, f, l, _⟩ := h
  refine ⟨⟨d, by rw [e]; rfl, b, by rw [c]; exact hx⟩, by rw [f]; rfl, c, by rw [l]; rfl, ?_⟩
  rw [a]
  simp [allBits, NewMultiFloatEncoder, bytesToBits]

/-- The bytes of a flushed encoding: the header byte, the seed, the records, the
end-of-stream record and fewer than eight padding bits; no error is recorded. -/
theorem Flush_stream (g : Nat) (xs : List Nat) (hx : ∀ x ∈ xs, Valid x) :
    (((NewMultiFloatEncoder g).writeAll xs).Flush).err = none ∧
      ∃ k, k < 8 ∧ bytesToBits (((NewMultiFloatEncoder g).writeAll xs).Flush).bw.buf =
        natToBits 8 (g <<< 4) ++ (natToBits 64 (seedOf xs) ++ tailBits g xs ++
          List.replicate k false) := by
  cases xs with
  | nil =>
    have e0 : (NewMultiFloatEncoder g).writeAll [] = NewMultiFloatEncoder g := rfl
    rw [e0, Flush_eq _ rfl]
    have h := Write_first { NewMultiFloatEncoder g with finished := true } NaN rfl rfl
      (by simp [NewMultiFloatEncoder])
    obtain ⟨a, b, c, d, e, f, _, _⟩ := h
    obtain ⟨k, hk, hf, hp⟩ := Flush_spec _ b
    have herr : ({ Write { NewMultiFloatEncoder g with finished := true } NaN with
        bw := (Write { NewMultiFloatEncoder g with finished := true } NaN).bw.Flush false } :
        MultiFloatEncoder).err = none := f
    refine ⟨herr, k, hk, ?_⟩
    dsimp only
    have hall : allBits ((Write { NewMultiFloatEncoder g with finished := true } NaN).bw.Flush
        false) = bytesToBits ((Write { NewMultiFloatEncoder g with finished := true }
          NaN).bw.Flush false).buf := by
      rw [allBits, hp, List.append_nil]
    rw [← hall, hf, a]
    simp [allBits, NewMultiFloatEncoder, bytesToBits, seedOf, tailBits, NaN]
  | cons x xs =>
    have hxv := hx x (List.mem_cons_self x xs)
    have h1 := Write_fresh g x hxv
    have h2 := writeAll_records xs _ h1.1 (fun y hy => hx y (List.mem_cons_of_mem x hy))
    have e0 : (NewMultiFloatEncoder g).writeAll (x :: xs) =
        ((NewMultiFloatEncoder g).Write x).writeAll xs := rfl
    rw [e0, Flush_eq _ h2.1.2.1]
    have h := Write_record
      { ((NewMultiFloatEncoder g).Write x).writeAll xs with finished := true } NaN
      h2.1.1 rfl h2.1.2.2.1 uvnan_lt h2.1.2.2.2.1
    obtain ⟨a, b, c, d, e, f⟩ := h
    obtain ⟨k, hk, hf, hp⟩ := Flush_spec _ b
    have herr : ({ Write { ((NewMultiFloatEncoder g).Write x).writeAll xs with
          finished := true } NaN with
        bw := (Write { ((NewMultiFloatEncoder g).Write x).writeAll xs with
          finished := true } NaN).bw.Flush false } : MultiFloatEncoder).err = none :=
      f.trans (h2.2.1.trans h1.2.1)
    refine ⟨herr, k, hk, ?_⟩
    dsimp only
    have hall : allBits ((Write
        { ((NewMultiFloatEncoder g).Write x).writeAll xs with finished := true } NaN).bw.Flush
        false) = bytesToBits ((Write
        { ((NewMultiFloatEncoder g).Write x).writeAll xs with finished := true }
          NaN).bw.Flush false).buf := by
      rw [allBits, hp, List.append_nil]
    rw [← hall, hf, a]
    have hrec : recordBits
        { ((NewMultiFloatEncoder g).Write x).writeAll xs with finished := true } NaN =
        recordBits (((NewMultiFloatEncoder g).Write x).writeAll xs) uvnan := rfl
    rw [hrec]
    show allBits (((NewMultiFloatEncoder g).Write x).writeAll xs).bw ++ _ ++ _ = _
    rw [h2.2.2, h1.2.2.2.2]
    simp [seedOf, tailBits]

/-! ## Decoding a whole stream -/

theorem Synced_finished (e : MultiFloatEncoder) (d : MultiFloatDecoder) (h : Synced e d) :
    Synced { e with finished := true } d := h

/-- The end-of-stream record stops the decoder without an error. -/
theorem Next_sentinel (e : MultiFloatEncoder) (d : MultiFloatDecoder) (rest : List Bool)
    (he : Running e) (hs : Synced e d) (hbr : d.br = recordBits e uvnan ++ rest) :
    (Next d).1 = false ∧ (Next d).2.err = none ∧ (Next d).2.finished = true ∧
      (Next d).2.val = e.val := by
  have h := Next_recordBits { e with finished := true } d uvnan rest he.1 rfl uvnan_lt
    he.2.2.2.1 (Synced_finished e d hs) hbr
  obtain ⟨_, _, _, n4, _, _, n7⟩ := h
  have hne : uvnan ≠ e.val := fun hc => he.2.2.2.ne_uvnan hc.symm
  obtain ⟨a, b, c⟩ := n7 ⟨hne, rfl⟩
  exact ⟨a, n4, c, b⟩

theorem nextValues_zero (d : MultiFloatDecoder) : nextValues 0 d = ([], d) := rfl

theorem trunc_records (xs : List Nat) (e : MultiFloatEncoder) (d : MultiFloatDecoder)
    (rest : List Bool) (m : Nat) (he : Running e) (hx : ∀ x ∈ xs, Valid x) (hs : Synced e d)
    (hm : m < (recordsBits e xs ++ recordBits (e.writeAll xs) uvnan).length)
    (hbr : d.br = (recordsBits e xs ++ recordBits (e.writeAll xs) uvnan ++ rest).take m) :
    ∃ n, n ≤ xs.length ∧ (nextValues n d).1 = xs.take n ∧
      (Next (nextValues n d).2).1 = false ∧ (Next (nextValues n d).2).2.err ≠ none := by
  induction xs generalizing e d m with
  | nil =>
    have e0 : e.writeAll [] = e := rfl
    rw [e0, recordsBits, List.nil_append] at hm hbr
    rw [List.take_append_of_le_length (le_of_lt hm)] at hbr
    have hc := cut_record { e with finished := true } d uvnan m he.1 rfl uvnan_lt he.2.2.2.1
      (Synced_finished e d hs) hm hbr
    exact ⟨0, le_refl _, rfl, hc.1, hc.2⟩
  | cons x xs ih =>
    have hxv := hx x (List.mem_cons_self x xs)
    have e1 : e.writeAll (x :: xs) = (e.Write x).writeAll xs := rfl
    rw [e1, recordsBits, List.append_assoc, List.append_assoc] at hbr
    rw [e1, recordsBits, List.append_assoc] at hm
    by_cases hlt : m < (recordBits e x).length
    · rw [List.take_append_of_le_length (le_of_lt hlt)] at hbr
      have hc := cut_record e d x m he.1 (hxv.accepted _) hxv.1 he.2.2.2.1 hs hlt hbr
      exact ⟨0, Nat.zero_le _, rfl, hc.1, hc.2⟩
    · rw [List.take_append_eq_append_take, List.take_of_length_le (not_lt.mp hlt)] at hbr
      have hn := Next_recordBits e d x _ he.1 (hxv.accepted _) hxv.1 he.2.2.2.1 hs hbr
      obtain ⟨n1, n2, n3, n4, n5, n6, _⟩ := hn
      obtain ⟨n6a, n6b, n6c⟩ := n6 (Or.inr hxv.ne_uvnan)
      have hrun := he.write_step hxv
      have hs' : Synced (e.Write x) (Next d).2 :=
        ⟨n3, n6c, n4, by rw [n6b, (Write_record e x he.1 (hxv.accepted _) he.2.2.1 hxv.1
          he.2.2.2.1).2.2.1], n5⟩
      have hm' : m - (recordBits e x).length <
          (recordsBits (e.Write x) xs ++ recordBits ((e.Write x).writeAll xs) uvnan).length := by
        rw [List.length_append] at hm
        omega
      rw [← List.append_assoc] at n1
      obtain ⟨n, hn1, hn2, hn3, hn4⟩ := ih (e.Write x) (Next d).2 _ hrun.1
        (fun y hy => hx y (List.mem_cons_of_mem x hy)) hs' hm' n1
      refine ⟨n + 1, by simp only [List.length_cons]; omega, ?_, ?_, ?_⟩
      · rw [nextValues_succ_true _ _ n6a, List.take_succ_cons]
        show (Next d).2.Values :: _ = x :: _
        rw [hn2]
        exact congrArg (· :: xs.take n) n6b
      · rw [nextValues_succ_true _ _ n6a]; exact hn3
      · rw [nextValues_succ_true _ _ n6a]; exact hn4

theorem Next_seed (x l t : Nat) (br : List Bool) (b : List Nat) (hx : x ≠ uvnan) :
    Next ⟨x, l, t, br, b, true, false, none⟩ = (true, ⟨x, l, t, br, b, false, false, none⟩) := by
  simp [Next, hx]

theorem Next_seed_sentinel (l t : Nat) (br : List Bool) (b : List Nat) :
    Next ⟨uvnan, l, t, br, b, true, false, none⟩ =
      (false, ⟨uvnan, l, t, br, b, false, true, none⟩) := by
  simp [Next]

/-- Decoding the stream of a list of values gives the values back and then stops
without an error. -/
theorem decode_stream (g : Nat) (xs : List Nat) (hx : ∀ x ∈ xs, Valid x) (l t : Nat)
    (rest : List Bool) (b : List Nat) :
    (nextValues xs.length ⟨seedOf xs, l, t, tailBits g xs ++ rest, b, true, false, none⟩).1 = xs ∧
      (Next (nextValues xs.length
        ⟨seedOf xs, l, t, tailBits g xs ++ rest, b, true, false, none⟩).2).1 = false ∧
      (Next (nextValues xs.length
        ⟨seedOf xs, l, t, tailBits g xs ++ rest, b, true, false, none⟩).2).2.err = none := by
  cases xs with
  | nil =>
    have hN := Next_seed_sentinel l t (tailBits g [] ++ rest) b
    refine ⟨rfl, ?_, ?_⟩
    · show (Next ⟨uvnan, l, t, tailBits g [] ++ rest, b, true, false, none⟩).1 = false
      rw [hN]
    · show (Next ⟨uvnan, l, t, tailBits g [] ++ rest, b, true, false, none⟩).2.err = none
      rw [hN]
  | cons x xs =>
    have hxv := hx x (List.mem_cons_self x xs)
    have h1 := Write_fresh g x hxv
    have hN := Next_seed x l t (tailBits g (x :: xs) ++ rest) b hxv.ne_uvnan
    have hs : Synced ((NewMultiFloatEncoder g).Write x)
        ⟨x, l, t, tailBits g (x :: xs) ++ rest, b, false, false, none⟩ :=
      ⟨rfl, rfl, rfl, h1.2.2.1.symm, fun hc => absurd h1.2.2.2.1 hc⟩
    have hd := decode_records xs _
      ⟨x, l, t, tailBits g (x :: xs) ++ rest, b, false, false, none⟩
      (recordBits (((NewMultiFloatEncoder g).Write x).writeAll xs) uvnan ++ rest) h1.1
      (fun y hy => hx y (List.mem_cons_of_mem x hy)) hs (by simp [tailBits])
    obtain ⟨d1, d2, d3, _⟩ := hd
    have h2 := writeAll_records xs _ h1.1 (fun y hy => hx y (List.mem_cons_of_mem x hy))
    have hS := Next_sentinel _ _ rest h2.1 d2 d3
    have hseed : seedOf (x :: xs) = x := rfl
    rw [hseed]
    have hv : nextValues (x :: xs).length
        ⟨x, l, t, tailBits g (x :: xs) ++ rest, b, true, false, none⟩ =
        (x :: (nextValues xs.length
          ⟨x, l, t, tailBits g (x :: xs) ++ rest, b, false, false, none⟩).1,
        (nextValues xs.length
          ⟨x, l, t, tailBits g (x :: xs) ++ rest, b, false, false, none⟩).2) := by
      have hN' : (Next ⟨x, l, t, tailBits g (x :: xs) ++ rest, b, true, false,
          none⟩).1 = true := by
        rw [hN]
      rw [List.length_cons, nextValues_succ_true _ _ hN', hN]
      rfl
    rw [hv]
    exact ⟨by rw [d1], hS.1, hS.2.1⟩

/-- Decoding a stream cut inside its records gives some first values and then
stops with an error. -/
theorem decode_truncated (g : Nat) (xs : List Nat) (hx : ∀ x ∈ xs, Valid x) (l t m : Nat)
    (rest : List Bool) (b : List Nat) (hm : m < (tailBits g xs).length) :
    ∃ n, n ≤ xs.length ∧
      (nextValues n ⟨seedOf xs, l, t, (tailBits g xs ++ rest).take m, b, true, false,
        none⟩).1 = xs.take n ∧
      (Next (nextValues n ⟨seedOf xs, l, t, (tailBits g xs ++ rest).take m, b, true, false,
        none⟩).2).1 = false ∧
      (Next (nextValues n ⟨seedOf xs, l, t, (tailBits g xs ++ rest).take m, b, true, false,
        none⟩).2).2.err ≠ none := by
  cases xs with
  | nil => simp [tailBits] at hm
  | cons x xs =>
    have hxv := hx x (List.mem_cons_self x xs)
    have h1 := Write_fresh g x hxv
    have hN := Next_seed x l t ((tailBits g (x :: xs) ++ rest).take m) b hxv.ne_uvnan
    have hs : Synced ((NewMultiFloatEncoder g).Write x)
        ⟨x, l, t, (tailBits g (x :: xs) ++ rest).take m, b, false, false, none⟩ :=
      ⟨rfl, rfl, rfl, h1.2.2.1.symm, fun hc => absurd h1.2.2.2.1 hc⟩
    obtain ⟨n, hn1, hn2, hn3, hn4⟩ := trunc_records xs _
      ⟨x, l, t, (tailBits g (x :: xs) ++ rest).take m, b, false, false, none⟩ rest m h1.1
      (fun y hy => hx y (List.mem_cons_of_mem x hy)) hs hm rfl
    have hseed : seedOf (x :: xs) = x := rfl
    rw [hseed]
    have hN' : (Next ⟨x, l, t, (tailBits g (x :: xs) ++ rest).take m, b, true,
        false, none⟩).1 = true := by
      rw [hN]
    have hv : nextValues (n + 1)
        ⟨x, l, t, (tailBits g (x :: xs) ++ rest).take m, b, true, false, none⟩ =
        (x :: (nextValues n
          ⟨x, l, t, (tailBits g (x :: xs) ++ rest).take m, b, false, false, none⟩).1,
        (nextValues n
          ⟨x, l, t, (tailBits g (x :: xs) ++ rest).take m, b, false, false, none⟩).2) := by
      rw [nextValues_succ_true _ _ hN', hN]
      rfl
    refine ⟨n + 1, by simp only [List.length_cons]; omega, ?_, ?_, ?_⟩
    · rw [hv, List.take_succ_cons]
      show x :: _ = x :: _
      rw [hn2]
    · rw [hv]; exact hn3
    · rw [hv]; exact hn4

theorem Reset_eq_new (g : Nat) (s : MultiFloatEncoder) :
    MultiFloatEncoder.Reset g s = NewMultiFloatEncoder g := by
  simp [MultiFloatEncoder.Reset, NewMultiFloatEncoder, BitWriter.Resume]

theorem SetBytes_stream (it : MultiFloatDecoder) (b : List Nat) (hdr seed : Nat)
    (T : List Bool) (hseed : seed < two64)
    (hb : bytesToBits b = natToBits 8 hdr ++ (natToBits 64 seed ++ T)) :
    it.SetBytes b = (none, ⟨seed, 0, 0, T, b, true, false, none⟩) := by
  cases b with
  | nil =>
    have := congrArg List.length hb
    simp only [bytesToBits, List.length_nil, List.length_append, natToBits_length] at this
    omega
  | cons h tl =>
    rw [bytesToBits] at hb
    have hinj := List.append_inj hb (by rw [natToBits_length, natToBits_length])
    have hr := ReadBits_natToBits 64 seed T hseed
    have hmod : seed % 2 ^ 64 = seed := Nat.mod_eq_of_lt hseed
    rw [hmod] at hr
    simp only [SetBytes, List.length_cons, Nat.add_one_ne_zero, if_false, BitReader.Reset,
      List.drop_succ_cons, List.drop_zero, hinj.2, hr]

theorem encode_layout (g : Nat) (xs : List Nat) (hx : ∀ x ∈ xs, Valid x) :
    (encode g xs).2 = none ∧
      ∃ k, k < 8 ∧ bytesToBits (encode g xs).1 =
        natToBits 8 (g <<< 4) ++ (natToBits 64 (seedOf xs) ++ tailBits g xs ++
          List.replicate k false) :=
  Flush_stream g xs hx

/-- The round trip on a list of accepted values. -/
theorem encode_decode (g : Nat) (xs : List Nat) (hx : ∀ x ∈ xs, Valid x)
    (it : MultiFloatDecoder) :
    (encode g xs).2 = none ∧ (it.SetBytes (encode g xs).1).1 = none ∧
      (nextValues xs.length (it.SetBytes (encode g xs).1).2).1 = xs ∧
      (Next (nextValues xs.length (it.SetBytes (encode g xs).1).2).2).1 = false ∧
      (Next (nextValues xs.length (it.SetBytes (encode g xs).1).2).2).2.err = none := by
  obtain ⟨h1, k, hk, hb⟩ := encode_layout g xs hx
  rw [List.append_assoc] at hb
  have hs := SetBytes_stream it _ _ _ _ (seedOf_lt xs hx) hb
  rw [hs]
  have hd := decode_stream g xs hx 0 0 (List.replicate k false) (encode g xs).1
  exact ⟨h1, rfl, hd.1, hd.2.1, hd.2.2⟩

/-- Decoding the first `k` bytes of an encoding, `9 ≤ k < len`. -/
theorem encode_truncate (g : Nat) (xs : List Nat) (hx : ∀ x ∈ xs, Valid x)
    (it : MultiFloatDecoder) (k : Nat) (hk1 : 9 ≤ k) (hk2 : k < (encode g xs).1.length) :
    (it.SetBytes ((encode g xs).1.take k)).1 = none ∧
      ∃ n, n ≤ xs.length ∧
        (nextValues n (it.SetBytes ((encode g xs).1.take k)).2).1 = xs.take n ∧
        (Next (nextValues n (it.SetBytes ((encode g xs).1.take k)).2).2).1 = false ∧
        (Next (nextValues n (it.SetBytes ((encode g xs).1.take k)).2).2).2.err ≠ none := by
  obtain ⟨_, p, hp, hb⟩ := encode_layout g xs hx
  have hlen := congrArg List.length hb
  simp only [bytesToBits_length, List.length_append, natToBits_length,
    List.length_replicate] at hlen
  have hbt : bytesToBits ((encode g xs).1.take k) =
      natToBits 8 (g <<< 4) ++ (natToBits 64 (seedOf xs) ++
        (tailBits g xs ++ List.replicate p false).take (8 * k - 72)) := by
    rw [bytesToBits_take, hb, List.take_append_eq_append_take,
      List.take_of_length_le (by rw [natToBits_length]; omega), natToBits_length,
      List.append_assoc, List.take_append_eq_append_take,
      List.take_of_length_le (by rw [natToBits_length]; omega), natToBits_length]
    have : 8 * k - 8 - 64 = 8 * k - 72 := by omega
    rw [this]
  have hs := SetBytes_stream it _ _ _ _ (seedOf_lt xs hx) hbt
  rw [hs]
  have hm : 8 * k - 72 < (tailBits g xs).length := by omega
  obtain ⟨n, hn⟩ := decode_truncated g xs hx 0 0 (8 * k - 72) (List.replicate p false)
    ((encode g xs).1.take k) hm
  exact ⟨rfl, n, hn⟩

/-! ## The sticky error and the terminal flags of the encoder -/

theorem Write_finished (s : MultiFloatEncoder) (v : Nat) :
    (s.Write v).finished = s.finished := by
  rw [Write_eq]; split_ifs <;> rfl

theorem Write_err (s : MultiFloatEncoder) (v : Nat) :
    (s.Write v).err =
      if (IsNaN v && !s.finished) = true then some Error.unsupportedValue else s.err := by
  rw [Write_eq]; split_ifs <;> rfl

theorem Write_rejected (s : MultiFloatEncoder) (v : Nat) (hv : IsNaN v = true)
    (hf : s.finished = false) : s.Write v = { s with err := some Error.unsupportedValue } := by
  rw [Write_eq, if_pos (by rw [hv, hf]; rfl)]

theorem Flush_of_finished (s : MultiFloatEncoder) (h : s.finished = true) : s.Flush = s := by
  simp [MultiFloatEncoder.Flush, h]

theorem Flush_finished (s : MultiFloatEncoder) : s.Flush.finished = true := by
  cases h : s.finished with
  | true => rw [Flush_of_finished s h]; exact h
  | false =>
    rw [Flush_eq s h]
    show (Write { s with finished := true } NaN).finished = true
    rw [Write_finished]

theorem Flush_err (s : MultiFloatEncoder) : s.Flush.err = s.err := by
  cases h : s.finished with
  | true => rw [Flush_of_finished s h]
  | false =>
    rw [Flush_eq s h]
    show (Write { s with finished := true } NaN).err = s.err
    rw [Write_err]
    simp

theorem run_of_finished (cs : List Call) (s : MultiFloatEncoder) (h : s.finished = true) :
    (run s cs).err = s.err := by
  induction cs generalizing s with
  | nil => rfl
  | cons c cs ih =>
    cases c with
    | write v =>
      rw [run, ih _ (by rw [Write_finished]; exact h), Write_err]
      simp [h]
    | flush => rw [run, Flush_of_finished s h, ih s h]

theorem NaNBeforeFlush_nil : ¬ NaNBeforeFlush [] := by
  rintro ⟨pre, v, post, h, _⟩
  cases pre <;> simp at h

theorem NaNBeforeFlush_flush (cs : List Call) : ¬ NaNBeforeFlush (Call.flush :: cs) := by
  rintro ⟨pre, v, post, h, _, hf⟩
  cases pre with
  | nil => simp at h
  | cons p pre =>
    simp only [List.cons_append, List.cons.injEq] at h
    exact hf (by rw [← h.1]; exact List.mem_cons_self _ _)

theorem NaNBeforeFlush_write (v : Nat) (cs : List Call) :
    NaNBeforeFlush (Call.write v :: cs) ↔ IsNaN v = true ∨ NaNBeforeFlush cs := by
  constructor
  · rintro ⟨pre, w, post, h, hw, hf⟩
    cases pre with
    | nil =>
      simp only [List.nil_append, List.cons.injEq, Call.write.injEq] at h
      left; rw [h.1]; exact hw
    | cons p pre =>
      simp only [List.cons_append, List.cons.injEq] at h
      right
      exact ⟨pre, w, post, h.2, hw, fun hm => hf (List.mem_cons_of_mem _ hm)⟩
  · rintro (h | ⟨pre, w, post, h, hw, hf⟩)
    · exact ⟨[], v, cs, rfl, h, by simp⟩
    · refine ⟨Call.write v :: pre, w, post, by rw [h]; rfl, hw, ?_⟩
      intro hm
      rcases List.mem_cons.mp hm with h1 | h1
      · cases h1
      · exact hf h1

theorem run_err (cs : List Call) (s : MultiFloatEncoder) (h : s.finished = false) :
    ((run s cs).err ≠ none ↔ s.err ≠ none ∨ NaNBeforeFlush cs) ∧
      ((run s cs).err = s.err ∨ (run s cs).err = some Error.unsupportedValue) := by
  induction cs generalizing s with
  | nil =>
    refine ⟨⟨fun hh => Or.inl hh, fun hh => hh.resolve_right NaNBeforeFlush_nil⟩, Or.inl rfl⟩
  | cons c cs ih =>
    cases c with
    | write v =>
      have ih' := ih (s.Write v) (by rw [Write_finished]; exact h)
      rw [run, NaNBeforeFlush_write]
      rw [Write_err, h] at ih'
      cases hv : IsNaN v with
      | true =>
        rw [hv] at ih'
        simp only [Bool.not_false, Bool.and_self, if_true] at ih'
        refine ⟨⟨fun _ => Or.inr (Or.inl rfl), fun _ => ih'.1.mpr (Or.inl (by simp))⟩, ?_⟩
        rcases ih'.2 with h2 | h2
        · right; exact h2
        · right; exact h2
      | false =>
        rw [hv] at ih'
        simp only [Bool.false_and, Bool.false_eq_true, if_false] at ih'
        refine ⟨?_, ih'.2⟩
        rw [ih'.1]
        simp
    | flush =>
      rw [run, run_of_finished cs _ (Flush_finished s), Flush_err]
      exact ⟨⟨fun hh => Or.inl hh, fun hh => hh.resolve_right (NaNBeforeFlush_flush cs)⟩,
        Or.inl rfl⟩

/-! ## Erasing the sticky error -/

theorem Write_eraseErr (s : MultiFloatEncoder) (v : Nat) :
    eraseErr (s.Write v) = eraseErr ((eraseErr s).Write v) := by
  rw [Write_eq, Write_eq]
  unfold eraseErr
  split_ifs <;> rfl

theorem Flush_eraseErr (s : MultiFloatEncoder) :
    eraseErr s.Flush = eraseErr (eraseErr s).Flush := by
  cases h : s.finished with
  | true =>
    rw [Flush_of_finished s h, Flush_of_finished (eraseErr s) h]
    rfl
  | false =>
    rw [Flush_eq s h, Flush_eq (eraseErr s) h]
    have hw := Write_eraseErr { s with finished := true } NaN
    have e1 : ∀ t : MultiFloatEncoder,
        eraseErr { t with bw := t.bw.Flush false } =
          { eraseErr t with bw := (eraseErr t).bw.Flush false } := fun _ => rfl
    rw [e1, e1, hw]
    rfl

theorem eraseErr_writeAll (xs : List Nat) (s t : MultiFloatEncoder)
    (h : eraseErr s = eraseErr t) : eraseErr (s.writeAll xs) = eraseErr (t.writeAll xs) := by
  induction xs generalizing s t with
  | nil => exact h
  | cons x xs ih =>
    exact ih (s.Write x) (t.Write x) (by rw [Write_eraseErr s, Write_eraseErr t, h])

theorem writeAll_filter (xs : List Nat) (s : MultiFloatEncoder) (h : s.finished = false) :
    eraseErr (s.writeAll xs) = eraseErr (s.writeAll (xs.filter (fun x => !IsNaN x))) := by
  induction xs generalizing s with
  | nil => rfl
  | cons x xs ih =>
    cases hv : IsNaN x with
    | true =>
      have hf : (x :: xs).filter (fun x => !IsNaN x) = xs.filter (fun x => !IsNaN x) := by
        simp [List.filter, hv]
      rw [hf, ← ih s h]
      show eraseErr ((s.Write x).writeAll xs) = _
      exact eraseErr_writeAll xs _ _ (by rw [Write_rejected s x hv h]; rfl)
    | false =>
      have hf : (x :: xs).filter (fun x => !IsNaN x) =
          x :: xs.filter (fun x => !IsNaN x) := by
        simp [List.filter, hv]
      rw [hf]
      exact ih (s.Write x) (by rw [Write_finished]; exact h)

/-! ## Terminal states of the decoder and `SetBytes` -/

theorem Next_of_terminal (d : MultiFloatDecoder) (h : d.err ≠ none ∨ d.finished = true) :
    Next d = (false, d) := by
  simp only [Next, h, if_true]

theorem iterate_terminal (n : Nat) (d : MultiFloatDecoder)
    (h : d.err ≠ none ∨ d.finished = true) :
    Nat.iterate (fun s => (Next s).2) n d = d := by
  induction n with
  | zero => rfl
  | succ n ih =>
    rw [Function.iterate_succ_apply]
    show Nat.iterate (fun s => (Next s).2) n (Next d).2 = d
    rw [Next_of_terminal d h]
    exact ih

theorem trace_terminal (n : Nat) (d : MultiFloatDecoder)
    (h : d.err ≠ none ∨ d.finished = true) :
    trace n d = List.replicate n (false, d.val, d.err) := by
  induction n with
  | zero => rfl
  | succ n ih =>
    rw [trace, Next_of_terminal d h, List.replicate_succ]
    exact congrArg _ ih

theorem nextValues_of_false (n : Nat) (d : MultiFloatDecoder) (h : (Next d).1 = false) :
    nextValues n d = ([], d) := by
  cases n with
  | zero => rfl
  | succ n => rw [nextValues, if_neg (by rw [h]; decide)]

theorem SetBytes_nil (it : MultiFloatDecoder) :
    it.SetBytes [] = (none, ⟨uvnan, 0, 0, it.br, [], true, false, none⟩) := by
  simp [SetBytes]

theorem SetBytes_cons_error (it : MultiFloatDecoder) (h : Nat) (tl : List Nat)
    (hl : tl.length < 8) :
    (it.SetBytes (h :: tl)).1 = some Error.truncatedStream := by
  have hlt : (bytesToBits tl).length < 64 := by rw [bytesToBits_length]; omega
  simp [SetBytes, BitReader.Reset, BitReader.ReadBits, hlt]

theorem SetBytes_cons_ok (it : MultiFloatDecoder) (h : Nat) (tl : List Nat)
    (hl : 8 ≤ tl.length) :
    it.SetBytes (h :: tl) =
      (none, ⟨bitsToNat ((bytesToBits tl).take 64) % two64, 0, 0, (bytesToBits tl).drop 64,
        h :: tl, true, false, none⟩) := by
  have hlt : ¬ (bytesToBits tl).length < 64 := by rw [bytesToBits_length]; omega
  simp [SetBytes, BitReader.Reset, BitReader.ReadBits, hlt]

theorem Next_after_empty (l t : Nat) (br : List Bool) (b : List Nat) :
    Next ⟨uvnan, l, t, br, b, true, false, none⟩ =
      (false, ⟨uvnan, l, t, br, b, false, true, none⟩) := Next_seed_sentinel l t br b

theorem trace_after_empty (n l t : Nat) (br : List Bool) (b : List Nat) :
    trace n ⟨uvnan, l, t, br, b, true, false, none⟩ = List.replicate n (false, uvnan, none) := by
  cases n with
  | zero => rfl
  | succ n =>
    rw [trace, Next_after_empty, List.replicate_succ]
    have := trace_terminal n ⟨uvnan, l, t, br, b, false, true, none⟩ (Or.inr rfl)
    rw [this]
    rfl

/-! ## The claims -/

/-- C1. Round trip: for every list `xs` of 64-bit patterns none of which is a NaN,
a fresh or `Reset` encoder on which `Write` is called on each element in order,
then `Flush`, then `Bytes`, returns no error and a buffer on which `SetBytes`
returns no error (whatever the decoder was before); `Next` then returns `true`
`len(xs)` times with `Values()` equal to the elements of `xs` in order, and the
next call returns `false` with `Error()` nil. -/
theorem round_trip (g : Nat) (s e0 : MultiFloatEncoder)
    (he : e0 = NewMultiFloatEncoder g ∨ e0 = MultiFloatEncoder.Reset g s)
    (xs : List Nat) (hx : ∀ x ∈ xs, x < two64 ∧ IsNaN x = false) (it : MultiFloatDecoder) :
    ((e0.writeAll xs).Flush.Bytes).2 = none ∧
      (it.SetBytes ((e0.writeAll xs).Flush.Bytes).1).1 = none ∧
      (nextValues xs.length (it.SetBytes ((e0.writeAll xs).Flush.Bytes).1).2).1 = xs ∧
      (Next (nextValues xs.length
        (it.SetBytes ((e0.writeAll xs).Flush.Bytes).1).2).2).1 = false ∧
      (Next (nextValues xs.length
        (it.SetBytes ((e0.writeAll xs).Flush.Bytes).1).2).2).2.Error = none := by
  have h0 : e0 = NewMultiFloatEncoder g := by
    rcases he with h | h
    · exact h
    · rw [h, Reset_eq_new]
  subst h0
  exact encode_decode g xs hx it

theorem round_trip_witness :
    (∀ x ∈ [0x40091EB851EB851F, 0x40091EB851EB851F, 0x4000000000000000],
        x < two64 ∧ IsNaN x = false) ∧
      (nextValues 3 ((⟨0, 0, 0, [], [], false, false, none⟩ : MultiFloatDecoder).SetBytes
        (((NewMultiFloatEncoder 1).writeAll
          [0x40091EB851EB851F, 0x40091EB851EB851F, 0x4000000000000000]).Flush.Bytes).1).2).1 =
        [0x40091EB851EB851F, 0x40091EB851EB851F, 0x4000000000000000] :=
  ⟨by decide,
    (round_trip 1 (NewMultiFloatEncoder 1) (NewMultiFloatEncoder 1) (Or.inl rfl)
      [0x40091EB851EB851F, 0x40091EB851EB851F, 0x4000000000000000] (by decide)
      ⟨0, 0, 0, [], [], false, false, none⟩).2.2.1⟩

/-- C2. Sticky NaN error: after any sequence of `Write` and `Flush` calls on a
fresh or `Reset` encoder, `Bytes()` returns an error if and only if some `Write`
of the sequence has a NaN argument and no `Flush` comes before it; the error is
then the unsupported-value error. -/
theorem sticky_nan_error (g : Nat) (s : MultiFloatEncoder) (cs : List Call) :
    (((run (NewMultiFloatEncoder g) cs).Bytes).2 ≠ none ↔
        ∃ pre v post, cs = pre ++ Call.write v :: post ∧ IsNaN v = true ∧
          Call.flush ∉ pre) ∧
      (((run (NewMultiFloatEncoder g) cs).Bytes).2 ≠ none →
        ((run (NewMultiFloatEncoder g) cs).Bytes).2 = some Error.unsupportedValue) ∧
      ((run (MultiFloatEncoder.Reset g s) cs).Bytes).2 =
        ((run (NewMultiFloatEncoder g) cs).Bytes).2 := by
  have h := run_err cs (NewMultiFloatEncoder g) rfl
  refine ⟨?_, ?_, by rw [Reset_eq_new]⟩
  · show (run (NewMultiFloatEncoder g) cs).err ≠ none ↔ NaNBeforeFlush cs
    rw [h.1]
    exact ⟨fun hh => hh.resolve_left (fun hc => hc rfl), Or.inr⟩
  · intro hne
    rcases h.2 with h2 | h2
    · exact absurd h2 hne
    · exact h2

/-- C3. A rejected NaN `Write` changes nothing but the sticky error, and after
writing `xs` to a fresh encoder and calling `Flush`, every field other than `err`,
the byte buffer included, is the one obtained by writing `xs` without its NaN
elements; decoding the buffer yields the non-NaN elements of `xs` in order and
then stops without a decoding error. -/
theorem nan_write_frame (g : Nat) (s : MultiFloatEncoder) (v : Nat) (xs : List Nat)
    (hx : ∀ x ∈ xs, x < two64) (it : MultiFloatDecoder) :
    (IsNaN v = true → s.finished = false →
        s.Write v = { s with err := some Error.unsupportedValue }) ∧
      { ((NewMultiFloatEncoder g).writeAll xs).Flush with
          err := ((NewMultiFloatEncoder g).writeAll
            (xs.filter (fun x => !IsNaN x))).Flush.err } =
        ((NewMultiFloatEncoder g).writeAll (xs.filter (fun x => !IsNaN x))).Flush ∧
      (((NewMultiFloatEncoder g).writeAll xs).Flush.Bytes).1 =
        (((NewMultiFloatEncoder g).writeAll (xs.filter (fun x => !IsNaN x))).Flush.Bytes).1 ∧
      (nextValues (xs.filter (fun x => !IsNaN x)).length
        (it.SetBytes (((NewMultiFloatEncoder g).writeAll xs).Flush.Bytes).1).2).1 =
        xs.filter (fun x => !IsNaN x) ∧
      (Next (nextValues (xs.filter (fun x => !IsNaN x)).length
        (it.SetBytes (((NewMultiFloatEncoder g).writeAll xs).Flush.Bytes).1).2).2).1 = false ∧
      (Next (nextValues (xs.filter (fun x => !IsNaN x)).length
        (it.SetBytes (((NewMultiFloatEncoder g).writeAll xs).Flush.Bytes).1).2).2).2.Error =
        none := by
  have hf : eraseErr ((NewMultiFloatEncoder g).writeAll xs).Flush =
      eraseErr ((NewMultiFloatEncoder g).writeAll (xs.filter (fun x => !IsNaN x))).Flush := by
    rw [Flush_eraseErr, writeAll_filter xs _ rfl, ← Flush_eraseErr]
  have hb : (((NewMultiFloatEncoder g).writeAll xs).Flush.Bytes).1 =
      (((NewMultiFloatEncoder g).writeAll (xs.filter (fun x => !IsNaN x))).Flush.Bytes).1 :=
    congrArg (fun e => e.bw.buf) hf
  have hv : ∀ x ∈ xs.filter (fun x => !IsNaN x), Valid x := by
    intro x hm
    rw [List.mem_filter] at hm
    refine ⟨hx x hm.1, ?_⟩
    have := hm.2
    simpa using this
  have hd := encode_decode g (xs.filter (fun x => !IsNaN x)) hv it
  refine ⟨Write_rejected s v, ?_, hb, ?_, ?_, ?_⟩
  · generalize ((NewMultiFloatEncoder g).writeAll xs).Flush = e1 at hf
    generalize ((NewMultiFloatEncoder g).writeAll (xs.filter (fun x => !IsNaN x))).Flush = e2
      at hf
    cases e1; cases e2
    simp only [eraseErr, MultiFloatEncoder.mk.injEq] at hf
    simp only [MultiFloatEncoder.mk.injEq]
    exact ⟨hf.1, trivial, hf.2.2⟩
  · rw [hb]; exact hd.2.2.1
  · rw [hb]; exact hd.2.2.2.1
  · rw [hb]; exact hd.2.2.2.2

theorem nan_write_frame_witness :
    (∀ x ∈ [0x40091EB851EB851F, 0x7FF8000000000001, 0x4000000000000000], x < two64) ∧
      (((NewMultiFloatEncoder 1).writeAll
          [0x40091EB851EB851F, 0x7FF8000000000001, 0x4000000000000000]).Flush.Bytes).1 =
        (((NewMultiFloatEncoder 1).writeAll
          ([0x40091EB851EB851F, 0x7FF8000000000001, 0x4000000000000000].filter
            (fun x => !IsNaN x))).Flush.Bytes).1 :=
  ⟨by decide,
    (nan_write_frame 1 (NewMultiFloatEncoder 1) 0
      [0x40091EB851EB851F, 0x7FF8000000000001, 0x4000000000000000] (by decide)
      ⟨0, 0, 0, [], [], false, false, none⟩).2.2.1⟩

/-- C4. `Flush` is idempotent: in every encoder state, calling `Flush` twice
leaves the encoder in the state reached after calling it once, so only one
end-of-stream record is ever written by repeated calls. -/
theorem flush_idempotent (s : MultiFloatEncoder) : s.Flush.Flush = s.Flush :=
  Flush_of_finished s.Flush (Flush_finished s)

/-- C5. `Reset` returns the encoder to its initial state: in every encoder state,
the state after `Reset` is that of a newly constructed encoder (`val` 0, no error,
`leading` all ones, `trailing` 0, `first` true, `finished` false, the buffer
holding only the header byte, no pending bits), so every later sequence of calls
gives the same bytes and error as on a fresh encoder. -/
theorem reset_is_fresh (g : Nat) (s : MultiFloatEncoder) (cs : List Call) :
    MultiFloatEncoder.Reset g s = NewMultiFloatEncoder g ∧
      (MultiFloatEncoder.Reset g s).val = 0 ∧ (MultiFloatEncoder.Reset g s).err = none ∧
      (MultiFloatEncoder.Reset g s).leading = allOnes ∧
      (MultiFloatEncoder.Reset g s).trailing = 0 ∧
      (MultiFloatEncoder.Reset g s).first = true ∧
      (MultiFloatEncoder.Reset g s).finished = false ∧
      (MultiFloatEncoder.Reset g s).bw.buf = [g <<< 4] ∧
      (MultiFloatEncoder.Reset g s).bw.pending = [] ∧
      (run (MultiFloatEncoder.Reset g s) cs).Bytes = (run (NewMultiFloatEncoder g) cs).Bytes := by
  rw [Reset_eq_new]
  exact ⟨rfl, rfl, rfl, rfl, rfl, rfl, rfl, rfl, rfl, rfl⟩

/-- C6. Truncation is detected: for every list `xs` of non-NaN patterns with
flushed encoding `b` and every `k` with `9 ≤ k < len(b)`, a decoder initialised
with the first `k` bytes of `b` yields from `Next` the first `n` elements of `xs`
for some `n ≤ len(xs)`, after which `Next` returns `false` and `Error()` is not
nil. -/
theorem truncation_detected (g : Nat) (xs : List Nat)
    (hx : ∀ x ∈ xs, x < two64 ∧ IsNaN x = false) (it : MultiFloatDecoder) (k : Nat)
    (hk1 : 9 ≤ k) (hk2 : k < (((NewMultiFloatEncoder g).writeAll xs).Flush.Bytes).1.length) :
    (it.SetBytes ((((NewMultiFloatEncoder g).writeAll xs).Flush.Bytes).1.take k)).1 = none ∧
      ∃ n, n ≤ xs.length ∧
        (nextValues n (it.SetBytes
          ((((NewMultiFloatEncoder g).writeAll xs).Flush.Bytes).1.take k)).2).1 = xs.take n ∧
        (Next (nextValues n (it.SetBytes
          ((((NewMultiFloatEncoder g).writeAll xs).Flush.Bytes).1.take k)).2).2).1 = false ∧
        (Next (nextValues n (it.SetBytes
          ((((NewMultiFloatEncoder g).writeAll xs).Flush.Bytes).1.take k)).2).2).2.Error ≠
          none :=
  encode_truncate g xs hx it k hk1 hk2

set_option maxRecDepth 100000 in
theorem truncation_detected_witness :
    (∀ x ∈ [0x40091EB851EB851F, 0x4000000000000000], x < two64 ∧ IsNaN x = false) ∧
      9 ≤ 10 ∧
      10 < (((NewMultiFloatEncoder 1).writeAll
        [0x40091EB851EB851F, 0x4000000000000000]).Flush.Bytes).1.length ∧
      ((⟨0, 0, 0, [], [], false, false, none⟩ : MultiFloatDecoder).SetBytes
        ((((NewMultiFloatEncoder 1).writeAll
          [0x40091EB851EB851F, 0x4000000000000000]).Flush.Bytes).1.take 10)).1 = none :=
  ⟨by decide, by decide, by decide,
    (truncation_detected 1 [0x40091EB851EB851F, 0x4000000000000000] (by decide)
      ⟨0, 0, 0, [], [], false, false, none⟩ 10 (by decide) (by decide)).1⟩

/-- C7. Terminal behaviour of the decoder is idempotent: once a call of `Next`
has returned `false`, after any number of later calls the next call also returns
`false` and the decoder is still in the state left by the first such call, so
`Values()` and `Error()` keep returning the same results. -/
theorem next_terminal (it : MultiFloatDecoder) (h : (Next it).1 = false) (n : Nat) :
    Next (Nat.iterate (fun d => (Next d).2) n (Next it).2) = (false, (Next it).2) := by
  have ht := Next_false_terminal it h
  rw [iterate_terminal n _ ht, Next_of_terminal _ ht]

theorem next_terminal_witness :
    (Next ⟨5, 0, 0, [], [], false, false, none⟩).1 = false ∧
      Next (Nat.iterate (fun d => (Next d).2) 3 (Next ⟨5, 0, 0, [], [], false, false, none⟩).2) =
        (false, (Next ⟨5, 0, 0, [], [], false, false, none⟩).2) :=
  ⟨by decide, next_terminal ⟨5, 0, 0, [], [], false, false, none⟩ (by decide) 3⟩

/-- C8. `SetBytes` fails exactly on a non-empty buffer too short for the seed:
it returns an error if and only if `1 ≤ len(b) ≤ 8`. -/
theorem setbytes_error_iff (it : MultiFloatDecoder) (b : List Nat) :
    (it.SetBytes b).1 ≠ none ↔ 1 ≤ b.length ∧ b.length ≤ 8 := by
  cases b with
  | nil => simp [SetBytes_nil]
  | cons h tl =>
    by_cases hl : tl.length < 8
    · rw [SetBytes_cons_error it h tl hl]
      simp only [List.length_cons]
      exact ⟨fun _ => ⟨by omega, by omega⟩, fun _ => by simp⟩
    · rw [SetBytes_cons_ok it h tl (by omega)]
      simp only [List.length_cons]
      exact ⟨fun hc => absurd rfl hc, fun hc => by omega⟩

theorem writeAll_eight (buf : List Nat) (p : List Bool) (hp : p.length = 8) :
    BitWriter.writeAll ⟨buf, []⟩ p = ⟨buf ++ [bitsToNat p], []⟩ := by
  match p, hp with
  | [_, _, _, _, _, _, _, _], _ => simp [BitWriter.writeAll, BitWriter.WriteBit]

theorem writeAll_bytes (ys buf : List Nat) (h : ∀ y ∈ ys, y < 256) :
    BitWriter.writeAll ⟨buf, []⟩ (bytesToBits ys) = ⟨buf ++ ys, []⟩ := by
  induction ys generalizing buf with
  | nil => simp [bytesToBits, BitWriter.writeAll]
  | cons y ys ih =>
    have h8 := writeAll_eight buf (natToBits 8 y) (natToBits_length 8 y)
    have hy : bitsToNat (natToBits 8 y) = y := by
      rw [bitsToNat_natToBits]
      exact Nat.mod_eq_of_lt (h y (List.mem_cons_self y ys))
    rw [hy] at h8
    have e : BitWriter.writeAll ⟨buf, []⟩ (bytesToBits (y :: ys)) =
        BitWriter.writeAll (BitWriter.writeAll ⟨buf, []⟩ (natToBits 8 y)) (bytesToBits ys) := by
      simp [bytesToBits, BitWriter.writeAll, List.foldl_append]
    rw [e, h8, ih _ (fun z hz => h z (List.mem_cons_of_mem y hz))]
    simp

set_option maxRecDepth 100000 in
theorem natToBits_uvnan :
    natToBits 64 uvnan = bytesToBits [0x7F, 0xF8, 0x00, 0x00, 0x00, 0x00, 0x00, 0x01] := by
  decide

theorem Flush_fresh_bytes (g : Nat) :
    (NewMultiFloatEncoder g).Flush.Bytes =
      ([g <<< 4, 0x7F, 0xF8, 0x00, 0x00, 0x00, 0x00, 0x00, 0x01], none) := by
  have hw : BitWriter.WriteBits ⟨[g <<< 4], []⟩ uvnan 64 =
      ⟨[g <<< 4, 0x7F, 0xF8, 0x00, 0x00, 0x00, 0x00, 0x00, 0x01], []⟩ := by
    have h64 : (64 : Int).toNat = 64 := by decide
    rw [BitWriter.WriteBits, h64, natToBits_uvnan, writeAll_bytes _ _ (by decide)]
    simp
  have hW : Write { NewMultiFloatEncoder g with finished := true } NaN =
      { val := uvnan, err := none, leading := allOnes, trailing := 0,
        bw := ⟨[g <<< 4, 0x7F, 0xF8, 0x00, 0x00, 0x00, 0x00, 0x00, 0x01], []⟩,
        first := false, finished := true } := by
    rw [Write_eq, if_neg (by simp), if_pos (by simp [NewMultiFloatEncoder])]
    simp only [NewMultiFloatEncoder, NaN, hw]
  rw [Flush_eq _ rfl, hW]
  simp [Bytes, BitWriter.Flush]

theorem Next_SetBytes_nil (it : MultiFloatDecoder) :
    (Next (it.SetBytes []).2).1 = false ∧ (Next (it.SetBytes []).2).2.Error = none := by
  rw [SetBytes_nil, Next_after_empty]
  exact ⟨rfl, rfl⟩

theorem SetBytes_fresh_flush (g : Nat) (it : MultiFloatDecoder) :
    it.SetBytes ((NewMultiFloatEncoder g).Flush.Bytes).1 =
      (none, ⟨uvnan, 0, 0, [], [g <<< 4, 0x7F, 0xF8, 0x00, 0x00, 0x00, 0x00, 0x00, 0x01],
        true, false, none⟩) := by
  rw [Flush_fresh_bytes]
  exact SetBytes_stream it _ (g <<< 4) uvnan [] uvnan_lt
    (by rw [bytesToBits, ← natToBits_uvnan, List.append_nil])

theorem Next_SetBytes_fresh_flush (g : Nat) (it : MultiFloatDecoder) :
    (it.SetBytes ((NewMultiFloatEncoder g).Flush.Bytes).1).1 = none ∧
      (Next (it.SetBytes ((NewMultiFloatEncoder g).Flush.Bytes).1).2).1 = false ∧
      (Next (it.SetBytes ((NewMultiFloatEncoder g).Flush.Bytes).1).2).2.Error = none := by
  rw [SetBytes_fresh_flush, Next_after_empty]
  exact ⟨rfl, rfl, rfl⟩

/-- C9. Empty stream: a decoder initialised by `SetBytes` with an empty slice, and
a decoder initialised with the buffer of a fresh encoder on which only `Flush` was
called (the header byte followed by `7F F8 00 00 00 00 00 01`), returns `false`
from its first `Next` call with `Error()` nil and yields no values. -/
theorem empty_stream (g : Nat) (it : MultiFloatDecoder) (n : Nat) :
    (it.SetBytes []).1 = none ∧ (Next (it.SetBytes []).2).1 = false ∧
      (Next (it.SetBytes []).2).2.Error = none ∧
      (nextValues n (it.SetBytes []).2).1 = [] ∧
      (NewMultiFloatEncoder g).Flush.Bytes =
        ([g <<< 4, 0x7F, 0xF8, 0x00, 0x00, 0x00, 0x00, 0x00, 0x01], none) ∧
      (it.SetBytes ((NewMultiFloatEncoder g).Flush.Bytes).1).1 = none ∧
      (Next (it.SetBytes ((NewMultiFloatEncoder g).Flush.Bytes).1).2).1 = false ∧
      (Next (it.SetBytes ((NewMultiFloatEncoder g).Flush.Bytes).1).2).2.Error = none ∧
      (nextValues n (it.SetBytes ((NewMultiFloatEncoder g).Flush.Bytes).1).2).1 = [] := by
  have hF := Next_SetBytes_fresh_flush g it
  have hN := Next_SetBytes_nil it
  have h1 : (it.SetBytes []).1 = none := by rw [SetBytes_nil]
  have h4 : (nextValues n (it.SetBytes []).2).1 = [] := by
    rw [nextValues_of_false n _ hN.1]
  have h9 : (nextValues n (it.SetBytes ((NewMultiFloatEncoder g).Flush.Bytes).1).2).1 = [] := by
    rw [nextValues_of_false n _ hF.2.1]
  exact ⟨h1, hN.1, hN.2, h4, Flush_fresh_bytes g, hF.1, hF.2.1, hF.2.2, h9⟩

/-- C10. A successful `SetBytes` fully restarts the decoder: whatever the two
decoders were before, if `SetBytes(b)` returns no error on both, then afterwards
the window is (0, 0), `first` is true, `finished` is false and `err` is nil, and
`Values()` and the results of every sequence of `Next` calls (returned flag,
`Values()`, `Error()`) are the same for both. -/
theorem setbytes_restarts (it1 it2 : MultiFloatDecoder) (b : List Nat)
    (h1 : (it1.SetBytes b).1 = none) (h2 : (it2.SetBytes b).1 = none) (n : Nat) :
    (it1.SetBytes b).2.leading = 0 ∧ (it1.SetBytes b).2.trailing = 0 ∧
      (it1.SetBytes b).2.first = true ∧ (it1.SetBytes b).2.finished = false ∧
      (it1.SetBytes b).2.err = none ∧
      (it1.SetBytes b).2.Values = (it2.SetBytes b).2.Values ∧
      trace n (it1.SetBytes b).2 = trace n (it2.SetBytes b).2 := by
  cases b with
  | nil =>
    rw [SetBytes_nil, SetBytes_nil, trace_after_empty, trace_after_empty]
    exact ⟨rfl, rfl, rfl, rfl, rfl, rfl, rfl⟩
  | cons h tl =>
    by_cases hl : tl.length < 8
    · rw [SetBytes_cons_error it1 h tl hl] at h1
      exact absurd h1 (by simp)
    · rw [SetBytes_cons_ok it1 h tl (by omega), SetBytes_cons_ok it2 h tl (by omega)]
      exact ⟨rfl, rfl, rfl, rfl, rfl, rfl, rfl⟩

set_option maxRecDepth 100000 in
theorem setbytes_restarts_witness :
    ((⟨5, 3, 2, [true], [], false, true, some Error.truncatedStream⟩ :
        MultiFloatDecoder).SetBytes [16, 64, 9, 30, 184, 81, 235, 133, 31, 0]).1 = none ∧
      ((⟨0, 0, 0, [], [], false, false, none⟩ :
        MultiFloatDecoder).SetBytes [16, 64, 9, 30, 184, 81, 235, 133, 31, 0]).1 = none ∧
      trace 4 ((⟨5, 3, 2, [true], [], false, true, some Error.truncatedStream⟩ :
        MultiFloatDecoder).SetBytes [16, 64, 9, 30, 184, 81, 235, 133, 31, 0]).2 =
      trace 4 ((⟨0, 0, 0, [], [], false, false, none⟩ :
        MultiFloatDecoder).SetBytes [16, 64, 9, 30, 184, 81, 235, 133, 31, 0]).2 :=
  ⟨by decide, by decide,
    (setbytes_restarts ⟨5, 3, 2, [true], [], false, true, some Error.truncatedStream⟩
      ⟨0, 0, 0, [], [], false, false, none⟩ [16, 64, 9, 30, 184, 81, 235, 133, 31, 0]
      (by decide) (by decide) 4).2.2.2.2.2.2⟩

/-! ## The stored leading count -/

theorem clampLeading_eq_mod (n : Nat) (h : n ≤ 64) : clampLeading n = n % 32 := by
  unfold clampLeading
  interval_cases n <;> decide

theorem Write_window (s : MultiFloatEncoder) (v : Nat) (hfirst : s.first = false)
    (hnan : (IsNaN v && !s.finished) = false) (hz : v ^^^ s.val ≠ 0)
    (hw : ¬ (s.leading ≠ allOnes ∧ clampLeading (LeadingZeros64 (v ^^^ s.val)) ≥ s.leading ∧
      TrailingZeros64 (v ^^^ s.val) ≥ s.trailing)) :
    (s.Write v).leading = clampLeading (LeadingZeros64 (v ^^^ s.val)) ∧
      (s.Write v).trailing = TrailingZeros64 (v ^^^ s.val) := by
  have c1 : ¬ (IsNaN v && !s.finished) = true := by rw [hnan]; decide
  have c2 : ¬ s.first = true := by rw [hfirst]; decide
  rw [Write_eq, if_neg c1, if_neg c2, if_neg hz, if_neg hw]
  exact ⟨rfl, rfl⟩

set_option maxRecDepth 100000 in
/-- C11, evaluated on the code: after `Write(0.0)` on a fresh encoder, the value
with bit pattern `0x800000` has a delta with 40 leading zero bits, and `Write`
stores the leading count 8 (`40 & 0x1F`) in the window and in the 5-bit field,
not `min(40, 31) = 31`. -/
theorem leading_count_at_40 :
    LeadingZeros64 (0x800000 ^^^ ((NewMultiFloatEncoder 1).Write 0).val) = 40 ∧
      (((NewMultiFloatEncoder 1).Write 0).Write 0x800000).leading = 8 ∧
      writtenBits ((NewMultiFloatEncoder 1).Write 0) 0x800000 =
        [true, true] ++ natToBits 5 8 ++ natToBits 6 33 ++ natToBits 33 1 := by
  decide

/-! ## What one `Write` appends -/

theorem writtenBits_of_append (s : MultiFloatEncoder) (v : Nat) (r : List Bool)
    (h : allBits (s.Write v).bw = allBits s.bw ++ r) : writtenBits s v = r := by
  rw [writtenBits, h, List.drop_left]

theorem writtenBits_rejected (s : MultiFloatEncoder) (v : Nat)
    (h : (IsNaN v && !s.finished) = true) : writtenBits s v = [] := by
  rw [writtenBits, Write_eq, if_pos h]
  exact List.drop_length _

theorem writtenBits_first (s : MultiFloatEncoder) (v : Nat) (hfirst : s.first = true)
    (hnan : (IsNaN v && !s.finished) = false) (hp : s.bw.pending.length < 8) :
    writtenBits s v = natToBits 64 v :=
  writtenBits_of_append s v _ (Write_first s v hfirst hnan hp).1

theorem writtenBits_record (s : MultiFloatEncoder) (v : Nat) (hfirst : s.first = false)
    (hnan : (IsNaN v && !s.finished) = false) (hp : s.bw.pending.length < 8)
    (hv : v < two64) (hval : s.val < two64) : writtenBits s v = recordBits s v :=
  writtenBits_of_append s v _ (Write_record s v hfirst hnan hp hv hval).1

theorem recordBits_length_le (s : MultiFloatEncoder) (v : Nat) :
    (recordBits s v).length ≤ 77 := by
  unfold recordBits
  split_ifs <;> simp [natToBits_length] <;> omega

theorem recordBits_length_pos (s : MultiFloatEncoder) (v : Nat) :
    1 ≤ (recordBits s v).length := by
  unfold recordBits
  split_ifs <;> simp [natToBits_length]

theorem recordsBits_length_le (xs : List Nat) (s : MultiFloatEncoder) :
    (recordsBits s xs).length ≤ 77 * xs.length := by
  induction xs generalizing s with
  | nil => simp [recordsBits]
  | cons x xs ih =>
    have h1 := recordBits_length_le s x
    have h2 := ih (s.Write x)
    simp only [recordsBits, List.length_append, List.length_cons]
    omega

/-- A `Write` that finds the value unchanged or reuses the window keeps the
window. -/
theorem Write_window_kept (s : MultiFloatEncoder) (v : Nat) (hfirst : s.first = false)
    (h : v ^^^ s.val = 0 ∨ (s.leading ≠ allOnes ∧
      clampLeading (LeadingZeros64 (v ^^^ s.val)) ≥ s.leading ∧
      TrailingZeros64 (v ^^^ s.val) ≥ s.trailing)) :
    (s.Write v).leading = s.leading ∧ (s.Write v).trailing = s.trailing := by
  have c2 : ¬ s.first = true := by rw [hfirst]; decide
  rw [Write_eq]
  by_cases c1 : (IsNaN v && !s.finished) = true
  · rw [if_pos c1]; exact ⟨rfl, rfl⟩
  · rw [if_neg c1, if_neg c2]
    by_cases hz : v ^^^ s.val = 0
    · rw [if_pos hz]; exact ⟨rfl, rfl⟩
    · rw [if_neg hz, if_pos (h.resolve_left hz)]; exact ⟨rfl, rfl⟩

/-! ## Repeated values and window reuse -/

theorem recordBits_same (s : MultiFloatEncoder) (v : Nat) (h : s.val = v) :
    recordBits s v = [false] := by
  rw [recordBits, if_pos (by rw [h, Nat.xor_self])]

theorem writeAll_same (k : Nat) (e : MultiFloatEncoder) (he : Running e) (v : Nat)
    (hv : Valid v) (hval : e.val = v) :
    allBits (e.writeAll (List.replicate k v)).bw = allBits e.bw ++ List.replicate k false := by
  induction k generalizing e with
  | zero => simp [MultiFloatEncoder.writeAll]
  | succ k ih =>
    have h1 := he.write_step hv
    have hw := Write_record e v he.1 (hv.accepted _) he.2.2.1 hv.1 he.2.2.2.1
    have h2 := ih (e.Write v) h1.1 hw.2.2.1
    have e1 : e.writeAll (List.replicate (k + 1) v) =
        (e.Write v).writeAll (List.replicate k v) := rfl
    rw [e1, h2, h1.2.2, recordBits_same e v hval, List.append_assoc]
    rfl

theorem Running_writeAll_fresh (g : Nat) (x : Nat) (xs : List Nat)
    (hx : ∀ y ∈ x :: xs, Valid y) :
    Running ((NewMultiFloatEncoder g).writeAll (x :: xs)) ∧
      allBits ((NewMultiFloatEncoder g).writeAll (x :: xs)).bw =
        natToBits 8 (g <<< 4) ++ natToBits 64 x ++
          recordsBits ((NewMultiFloatEncoder g).Write x) xs := by
  have h1 := Write_fresh g x (hx x (List.mem_cons_self x xs))
  have h2 := writeAll_records xs _ h1.1 (fun y hy => hx y (List.mem_cons_of_mem x hy))
  have e1 : (NewMultiFloatEncoder g).writeAll (x :: xs) =
      ((NewMultiFloatEncoder g).Write x).writeAll xs := rfl
  rw [e1, h2.2.2, h1.2.2.2.2]
  exact ⟨h2.1, rfl⟩

theorem ReuseOnly_cons (s : MultiFloatEncoder) (v : Nat) (vs : List Nat) :
    ReuseOnly s (v :: vs) = true ↔
      ((writtenBits s v = [false] ∨
        writtenBits s v = [true, false] ++
          natToBits (64 - s.leading - s.trailing) ((v ^^^ s.val) >>> s.trailing)) ∧
      (s.Write v).leading = s.leading ∧ (s.Write v).trailing = s.trailing ∧
      ReuseOnly (s.Write v) vs = true) := by
  simp only [ReuseOnly, Bool.and_eq_true, Bool.or_eq_true, beq_iff_eq, and_assoc]

theorem FitsWindow_cons (l t p v : Nat) (vs : List Nat) :
    FitsWindow l t p (v :: vs) = true ↔
      ((v ^^^ p = 0 ∨ (l ≤ clampLeading (LeadingZeros64 (v ^^^ p)) ∧
        t ≤ TrailingZeros64 (v ^^^ p))) ∧ FitsWindow l t v vs = true) := by
  simp only [FitsWindow, Bool.and_eq_true, Bool.or_eq_true, beq_iff_eq, decide_eq_true_eq]

theorem reuse_step (s : MultiFloatEncoder) (v : Nat) (hs : Running s)
    (hw : s.leading ≠ allOnes) (hv : Valid v)
    (hfit : v ^^^ s.val = 0 ∨ (s.leading ≤ clampLeading (LeadingZeros64 (v ^^^ s.val)) ∧
      s.trailing ≤ TrailingZeros64 (v ^^^ s.val))) :
    (writtenBits s v = [false] ∨
      writtenBits s v = [true, false] ++
        natToBits (64 - s.leading - s.trailing) ((v ^^^ s.val) >>> s.trailing)) ∧
      (s.Write v).leading = s.leading ∧ (s.Write v).trailing = s.trailing := by
  have hwb := writtenBits_record s v hs.1 (hv.accepted _) hs.2.2.1 hv.1 hs.2.2.2.1
  have hk := Write_window_kept s v hs.1
    (hfit.imp id (fun h => ⟨hw, h.1, h.2⟩))
  refine ⟨?_, hk⟩
  rw [hwb, recordBits]
  by_cases hz : v ^^^ s.val = 0
  · rw [if_pos hz]; exact Or.inl rfl
  · have hc := hfit.resolve_left hz
    rw [if_neg hz, if_pos ⟨hw, hc.1, hc.2⟩]; exact Or.inr rfl

theorem reuse_all (xs : List Nat) (s : MultiFloatEncoder) (hs : Running s)
    (hw : s.leading ≠ allOnes) (hx : ∀ x ∈ xs, Valid x)
    (hfit : FitsWindow s.leading s.trailing s.val xs = true) : ReuseOnly s xs = true := by
  induction xs generalizing s with
  | nil => rfl
  | cons x xs ih =>
    have hxv := hx x (List.mem_cons_self x xs)
    rw [FitsWindow_cons] at hfit
    have h1 := reuse_step s x hs hw hxv hfit.1
    have h2 := hs.write_step hxv
    have hval := (Write_record s x hs.1 (hxv.accepted _) hs.2.2.1 hxv.1 hs.2.2.2.1).2.2.1
    rw [ReuseOnly_cons]
    refine ⟨h1.1, h1.2.1, h1.2.2, ?_⟩
    apply ih (s.Write x) h2.1
    · rw [h1.2.1]; exact hw
    · exact fun y hy => hx y (List.mem_cons_of_mem x hy)
    · rw [h1.2.1, h1.2.2, hval]; exact hfit.2

set_option maxRecDepth 100000 in
/-- C12, evaluated on the code: the values with bit patterns `0`,
`0xFF0000000000` and `0x1008000000000` are not NaNs; the first delta has 16
leading and 40 trailing zero bits and the second 15 and 39, no greater than those
of the delta before; the record of the third value, which comes after the first
windowed record, starts with the control bits 1, 1 of a new-window record. -/
theorem smaller_counts_new_window :
    (∀ x ∈ [0, 0xFF0000000000, 0x1008000000000], x < two64 ∧ IsNaN x = false) ∧
      LeadingZeros64 (0xFF0000000000 ^^^ 0) = 16 ∧
      TrailingZeros64 (0xFF0000000000 ^^^ 0) = 40 ∧
      LeadingZeros64 (0x1008000000000 ^^^ 0xFF0000000000) = 15 ∧
      TrailingZeros64 (0x1008000000000 ^^^ 0xFF0000000000) = 39 ∧
      (writtenBits ((NewMultiFloatEncoder 1).Write 0) 0xFF0000000000).take 2 = [true, true] ∧
      (writtenBits (((NewMultiFloatEncoder 1).Write 0).Write 0xFF0000000000)
        0x1008000000000).take 2 = [true, true] := by
  decide

/-- C12, amended: after values that have set a window, every further non-NaN
value whose non-zero delta has a stored leading count and a trailing-zero count
no smaller than those of the window in force is written as the single bit 0 or
as a reuse-window record (control bits 1, 0 and the window's significant bits),
never as a new-window record, and the window stays as it is. -/
theorem window_reuse (g : Nat) (pre xs : List Nat)
    (hpre : ∀ x ∈ pre, x < two64 ∧ IsNaN x = false)
    (hxs : ∀ x ∈ xs, x < two64 ∧ IsNaN x = false)
    (hw : ((NewMultiFloatEncoder g).writeAll pre).leading ≠ allOnes)
    (hfit : FitsWindow ((NewMultiFloatEncoder g).writeAll pre).leading
      ((NewMultiFloatEncoder g).writeAll pre).trailing
      ((NewMultiFloatEncoder g).writeAll pre).val xs = true) :
    ReuseOnly ((NewMultiFloatEncoder g).writeAll pre) xs = true := by
  cases pre with
  | nil => exact absurd rfl hw
  | cons p pre =>
    exact reuse_all xs _ (Running_writeAll_fresh g p pre hpre).1 hw hxs hfit

set_option maxRecDepth 100000 in
theorem window_reuse_witness :
    (∀ x ∈ [0, 0xFF0000000000], x < two64 ∧ IsNaN x = false) ∧
      (∀ x ∈ [0xF0000000000, 0xF0000000000, 0x3C0000000000], x < two64 ∧ IsNaN x = false) ∧
      ((NewMultiFloatEncoder 1).writeAll [0, 0xFF0000000000]).leading = 16 ∧
      ((NewMultiFloatEncoder 1).writeAll [0, 0xFF0000000000]).trailing = 40 ∧
      ReuseOnly ((NewMultiFloatEncoder 1).writeAll [0, 0xFF0000000000])
        [0xF0000000000, 0xF0000000000, 0x3C0000000000] = true :=
  ⟨by decide, by decide, by decide, by decide,
    window_reuse 1 [0, 0xFF0000000000] [0xF0000000000, 0xF0000000000, 0x3C0000000000]
      (by decide) (by decide) (by decide) (by decide)⟩

/-- C13: writing a non-NaN value `v` to a fresh encoder `n ≥ 1` times puts, after
the header byte, the 64-bit pattern of `v` followed by `n - 1` zero bits, that is
`64 + (n - 1)` bits; and in every state that has a previous value, a `Write` of a
value bit-identical to it appends exactly the single bit 0 and leaves the window
unchanged. -/
theorem repeated_value_one_bit (g v n : Nat) (hv : v < two64 ∧ IsNaN v = false)
    (hn : 1 ≤ n) :
    streamBits ((NewMultiFloatEncoder g).writeAll (List.replicate n v)) =
        natToBits 64 v ++ List.replicate (n - 1) false ∧
      (streamBits ((NewMultiFloatEncoder g).writeAll (List.replicate n v))).length =
        64 + (n - 1) ∧
      ∀ s : MultiFloatEncoder, s.first = false → s.bw.pending.length < 8 → s.val = v →
        writtenBits s v = [false] ∧ (s.Write v).leading = s.leading ∧
          (s.Write v).trailing = s.trailing := by
  obtain ⟨k, rfl⟩ : ∃ k, n = k + 1 := ⟨n - 1, by omega⟩
  have h1 := Write_fresh g v hv
  have h2 := writeAll_same k _ h1.1 v hv h1.2.2.1
  have e1 : (NewMultiFloatEncoder g).writeAll (List.replicate (k + 1) v) =
      ((NewMultiFloatEncoder g).Write v).writeAll (List.replicate k v) := rfl
  have hs : streamBits ((NewMultiFloatEncoder g).writeAll (List.replicate (k + 1) v)) =
      natToBits 64 v ++ List.replicate k false := by
    rw [streamBits, e1, h2, h1.2.2.2.2, List.append_assoc]
    have hl : (natToBits 8 (g <<< 4)).length = 8 := natToBits_length _ _
    exact List.drop_left' hl
  refine ⟨hs, ?_, ?_⟩
  · rw [hs]; simp [natToBits_length]
  · intro s hf hp hval
    have hwb := writtenBits_record s v hf (Valid.accepted hv _) hp hv.1 (by rw [hval]; exact hv.1)
    rw [hwb, recordBits_same s v hval]
    exact ⟨rfl, Write_window_kept s v hf (Or.inl (by rw [hval, Nat.xor_self]))⟩

set_option maxRecDepth 100000 in
theorem repeated_value_one_bit_witness :
    (0x40091EB851EB851F < two64 ∧ IsNaN 0x40091EB851EB851F = false) ∧ 1 ≤ 3 ∧
      (streamBits ((NewMultiFloatEncoder 1).writeAll
        [0x40091EB851EB851F, 0x40091EB851EB851F, 0x40091EB851EB851F])).length = 66 :=
  ⟨by decide, by decide,
    (repeated_value_one_bit 1 0x40091EB851EB851F 3 (by decide) (by decide)).2.1⟩

/-! ## Rejected patterns and record sizes -/

theorem writtenBits_length_le (s : MultiFloatEncoder) (v : Nat)
    (hp : s.bw.pending.length < 8) (hv : v < two64) (hval : s.val < two64) :
    (writtenBits s v).length ≤ 77 := by
  cases hnan : (IsNaN v && !s.finished) with
  | true => rw [writtenBits_rejected s v hnan]; exact Nat.zero_le _
  | false =>
    cases hfirst : s.first with
    | true => rw [writtenBits_first s v hfirst hnan hp, natToBits_length]; decide
    | false =>
      rw [writtenBits_record s v hfirst hnan hp hv hval]
      exact recordBits_length_le s v

theorem tailBits_length_le (g : Nat) (xs : List Nat) :
    (tailBits g xs).length ≤ 77 * xs.length := by
  cases xs with
  | nil => simp [tailBits]
  | cons x xs =>
    have h1 := recordsBits_length_le xs ((NewMultiFloatEncoder g).Write x)
    have h2 := recordBits_length_le (((NewMultiFloatEncoder g).Write x).writeAll xs) uvnan
    simp only [tailBits, List.length_append, List.length_cons]
    omega

theorem encode_length_le (g : Nat) (xs : List Nat) (hx : ∀ x ∈ xs, Valid x) :
    (encode g xs).1.length ≤ 1 + (64 + 77 * xs.length + 7) / 8 := by
  obtain ⟨k, hk, hb⟩ := (encode_layout g xs hx).2
  have hl := congrArg List.length hb
  have ht := tailBits_length_le g xs
  simp only [bytesToBits_length, List.length_append, natToBits_length,
    List.length_replicate] at hl
  omega

theorem flushed_length_le (g : Nat) (xs : List Nat) (hx : ∀ x ∈ xs, x < two64) :
    ((NewMultiFloatEncoder g).writeAll xs).Flush.Bytes.1.length ≤
      1 + (64 + 77 * xs.length + 7) / 8 := by
  have hf : eraseErr ((NewMultiFloatEncoder g).writeAll xs).Flush =
      eraseErr ((NewMultiFloatEncoder g).writeAll (xs.filter (fun x => !IsNaN x))).Flush := by
    rw [Flush_eraseErr, writeAll_filter xs _ rfl, ← Flush_eraseErr]
  have hb : ((NewMultiFloatEncoder g).writeAll xs).Flush.Bytes.1 =
      (encode g (xs.filter (fun x => !IsNaN x))).1 := congrArg (fun e => e.bw.buf) hf
  have hv : ∀ x ∈ xs.filter (fun x => !IsNaN x), Valid x := by
    intro x hm
    rw [List.mem_filter] at hm
    exact ⟨hx x hm.1, by simpa using hm.2⟩
  have h1 := encode_length_le g _ hv
  have h2 := List.length_filter_le (fun x => !IsNaN x) xs
  rw [hb]
  omega

set_option maxRecDepth 100000 in
/-- C15, evaluated on the code: the NaN with bit pattern `0x7FF8000000000002`
differs from the sentinel, and `Write` of it on a fresh encoder, before `Flush`,
records the unsupported-value error and stores nothing. -/
theorem other_nan_rejected :
    0x7FF8000000000002 ≠ uvnan ∧ 0x7FF8000000000002 < two64 ∧
      IsNaN 0x7FF8000000000002 = true ∧
      ((NewMultiFloatEncoder 1).Write 0x7FF8000000000002).Bytes.2 =
        some Error.unsupportedValue ∧
      writtenBits (NewMultiFloatEncoder 1) 0x7FF8000000000002 = [] := by
  decide

/-- C15, amended: the patterns that `Write` rejects before `Flush` are the NaNs, all
of them, the test being `math.IsNaN`: a `Write` of a NaN on an unfinished encoder
records the unsupported-value error; a `Write` of a value that is not a NaN
records no error, and a list of such values written to a fresh encoder and
flushed is decoded back bit for bit. -/
theorem nan_patterns_rejected (g : Nat) (xs : List Nat)
    (hx : ∀ x ∈ xs, x < two64 ∧ IsNaN x = false) (it : MultiFloatDecoder) :
    (∀ (s : MultiFloatEncoder) (v : Nat), s.finished = false → IsNaN v = true →
        (s.Write v).Bytes.2 = some Error.unsupportedValue) ∧
      (∀ (s : MultiFloatEncoder) (v : Nat), IsNaN v = false →
        (s.Write v).Bytes.2 = s.Bytes.2) ∧
      ((NewMultiFloatEncoder g).writeAll xs).Flush.Bytes.2 = none ∧
      (it.SetBytes ((NewMultiFloatEncoder g).writeAll xs).Flush.Bytes.1).1 = none ∧
      (nextValues xs.length
        (it.SetBytes ((NewMultiFloatEncoder g).writeAll xs).Flush.Bytes.1).2).1 = xs := by
  have h := encode_decode g xs hx it
  refine ⟨?_, ?_, h.1, h.2.1, h.2.2.1⟩
  · intro s v hf hv
    rw [Write_rejected s v hv hf]; rfl
  · intro s v hv
    have := Write_err s v
    rw [hv] at this
    exact this

set_option maxRecDepth 100000 in
theorem nan_patterns_rejected_witness :
    (∀ x ∈ [0x40091EB851EB851F, 0x4000000000000000], x < two64 ∧ IsNaN x = false) ∧
      (nextValues 2 ((⟨0, 0, 0, [], [], false, false, none⟩ : MultiFloatDecoder).SetBytes
        ((NewMultiFloatEncoder 1).writeAll
          [0x40091EB851EB851F, 0x4000000000000000]).Flush.Bytes.1).2).1 =
        [0x40091EB851EB851F, 0x4000000000000000] :=
  ⟨by decide, (nan_patterns_rejected 1 [0x40091EB851EB851F, 0x4000000000000000] (by decide)
    ⟨0, 0, 0, [], [], false, false, none⟩).2.2.2.2⟩

set_option maxRecDepth 100000 in
/-- C16, evaluated on the code: after `Write(0.0)` on a fresh encoder the state has
`first = false`, the NaN with bit pattern `0x7FF8000000000002` has a non-zero
delta against the previous value, and `Write` of it appends no bit at all,
neither the bits of a reuse record nor those of a new-window record. -/
theorem nan_write_appends_nothing :
    ((NewMultiFloatEncoder 1).Write 0).first = false ∧
      0x7FF8000000000002 ^^^ ((NewMultiFloatEncoder 1).Write 0).val ≠ 0 ∧
      (writtenBits ((NewMultiFloatEncoder 1).Write 0) 0x7FF8000000000002).length = 0 := by
  decide

/-- C16, amended: in every encoder state with `first = false` and for every value
`v` that `Write` accepts (not a NaN, or the encoder is finished) with a non-zero
delta `d` against the previous value, `Write(v)` appends exactly
`2 + (64 - window.leading - window.trailing)` bits when a window is set and the
stored leading count of `d` and its trailing-zero count are at least those of the
window, and otherwise exactly `2 + 5 + 6 + sigbits` bits with
`sigbits = 64 - leading - trailing` of the new window; no single `Write` appends
more than 77 bits, and the flushed encoding of `n` values has at most
`1 + ceil((64 + 77 * n) / 8)` bytes. -/
theorem record_sizes (s : MultiFloatEncoder) (v : Nat) (hfirst : s.first = false)
    (hp : s.bw.pending.length < 8) (hv : v < two64) (hval : s.val < two64)
    (hacc : (IsNaN v && !s.finished) = false) (hz : v ^^^ s.val ≠ 0)
    (g : Nat) (xs : List Nat) (hx : ∀ x ∈ xs, x < two64) :
    ((s.leading ≠ allOnes ∧ clampLeading (LeadingZeros64 (v ^^^ s.val)) ≥ s.leading ∧
        TrailingZeros64 (v ^^^ s.val) ≥ s.trailing) →
        (writtenBits s v).length = 2 + (64 - s.leading - s.trailing)) ∧
      (¬ (s.leading ≠ allOnes ∧ clampLeading (LeadingZeros64 (v ^^^ s.val)) ≥ s.leading ∧
        TrailingZeros64 (v ^^^ s.val) ≥ s.trailing) →
        (writtenBits s v).length =
          2 + 5 + 6 + (64 - (s.Write v).leading - (s.Write v).trailing)) ∧
      (∀ (s1 : MultiFloatEncoder) (v1 : Nat), s1.bw.pending.length < 8 → v1 < two64 →
        s1.val < two64 → (writtenBits s1 v1).length ≤ 77) ∧
      ((NewMultiFloatEncoder g).writeAll xs).Flush.Bytes.1.length ≤
        1 + (64 + 77 * xs.length + 7) / 8 := by
  have hwb := writtenBits_record s v hfirst hacc hp hv hval
  refine ⟨?_, ?_, fun s1 v1 h1 h2 h3 => writtenBits_length_le s1 v1 h1 h2 h3,
    flushed_length_le g xs hx⟩
  · intro hc
    rw [hwb, recordBits, if_neg hz, if_pos hc]
    simp [natToBits_length]
    omega
  · intro hc
    have hwin := Write_window s v hfirst hacc hz hc
    rw [hwb, recordBits, if_neg hz, if_neg hc, hwin.1, hwin.2]
    simp [natToBits_length]
    omega

set_option maxRecDepth 100000 in
theorem record_sizes_witness :
    ((NewMultiFloatEncoder 1).Write 0).first = false ∧
      (writtenBits ((NewMultiFloatEncoder 1).Write 0) 0xFF0000000000).length =
        2 + 5 + 6 + (64 - (((NewMultiFloatEncoder 1).Write 0).Write 0xFF0000000000).leading -
          (((NewMultiFloatEncoder 1).Write 0).Write 0xFF0000000000).trailing) ∧
      ((NewMultiFloatEncoder 1).writeAll [0, 0xFF0000000000]).Flush.Bytes.1.length ≤
        1 + (64 + 77 * 2 + 7) / 8 :=
  ⟨by decide,
    (record_sizes ((NewMultiFloatEncoder 1).Write 0) 0xFF0000000000 (by decide) (by decide)
      (by decide) (by decide) (by decide) (by decide) 1 [0, 0xFF0000000000]
      (by decide)).2.1 (by decide),
    (record_sizes ((NewMultiFloatEncoder 1).Write 0) 0xFF0000000000 (by decide) (by decide)
      (by decide) (by decide) (by decide) (by decide) 1 [0, 0xFF0000000000]
      (by decide)).2.2.2⟩

/-! ## The window of the encoder -/

theorem Write_WindowOK (s : MultiFloatEncoder) (v : Nat) (hs : WindowOK s) (hv : v < two64) :
    WindowOK (s.Write v) := by
  rw [Write_eq]
  by_cases c1 : (IsNaN v && !s.finished) = true
  · rw [if_pos c1]; exact hs
  · rw [if_neg c1]
    by_cases c2 : s.first = true
    · rw [if_pos c2]; exact ⟨hv, hs.2⟩
    · rw [if_neg c2]
      by_cases hz : v ^^^ s.val = 0
      · rw [if_pos hz]; exact ⟨hv, hs.2⟩
      · rw [if_neg hz]
        have hb := delta_bounds v s.val hv hs.1 hz
        split_ifs with hc
        · exact ⟨hv, hs.2⟩
        · exact ⟨hv, Or.inr ⟨hb.2.1, Nat.le_trans (Nat.add_le_add_right hb.1 _) hb.2.2⟩⟩

theorem Flush_WindowOK (s : MultiFloatEncoder) (hs : WindowOK s) : WindowOK s.Flush := by
  cases hf : s.finished with
  | true => rw [Flush_of_finished s hf]; exact hs
  | false =>
    rw [Flush_eq s hf]
    have h0 : WindowOK { s with finished := true } := hs
    exact Write_WindowOK _ NaN h0 uvnan_lt

theorem run_WindowOK (cs : List Call) (s : MultiFloatEncoder) (hs : WindowOK s)
    (hcs : ∀ v, Call.write v ∈ cs → v < two64) : WindowOK (run s cs) := by
  induction cs generalizing s with
  | nil => exact hs
  | cons c cs ih =>
    cases c with
    | write v =>
      exact ih (s.Write v) (Write_WindowOK s v hs (hcs v (List.mem_cons_self _ _)))
        (fun w hw => hcs w (List.mem_cons_of_mem _ hw))
    | flush =>
      exact ih s.Flush (Flush_WindowOK s hs) (fun w hw => hcs w (List.mem_cons_of_mem _ hw))

theorem WindowOK_new (g : Nat) : WindowOK (NewMultiFloatEncoder g) :=
  ⟨by simp [NewMultiFloatEncoder, two64], Or.inl rfl⟩

theorem sigbits_field (sig : Nat) (h1 : 1 ≤ sig) (h2 : sig ≤ 64) :
    natToBits 6 sig = natToBits 6 0 ↔ sig = 64 := by
  constructor
  · intro h
    have := congrArg bitsToNat h
    rw [bitsToNat_natToBits, bitsToNat_natToBits] at this
    omega
  · intro h; rw [h]; decide

/-- C17: in every encoder state reached from a fresh or `Reset` encoder by `Write`
and `Flush` calls, the window is unset (`leading` all ones) or has
`leading ≤ 31` and `leading + trailing ≤ 63`. For a value with non-zero delta
written in such a state, the `sigbits` of a new window, computed with 64-bit
wrap-around, is `64 - leading - trailing` and lies in `[1, 64]`, the 6-bit field
written for it is 0 exactly when `sigbits = 64`, which is exactly when the stored
leading and trailing counts are both 0; and when the window is reused its width
`64 - window.leading - window.trailing` lies in `[1, 64]`, the shifted delta
fits in that many bits and shifting it back gives the delta. -/
theorem window_invariant (g : Nat) (s0 e0 : MultiFloatEncoder)
    (he : e0 = NewMultiFloatEncoder g ∨ e0 = MultiFloatEncoder.Reset g s0)
    (cs : List Call) (hcs : ∀ v, Call.write v ∈ cs → v < two64)
    (v : Nat) (hv : v < two64) (hz : v ^^^ (run e0 cs).val ≠ 0) :
    ((run e0 cs).leading = allOnes ∨
        ((run e0 cs).leading ≤ 31 ∧ (run e0 cs).leading + (run e0 cs).trailing ≤ 63)) ∧
      (sub64 (sub64 64 (clampLeading (LeadingZeros64 (v ^^^ (run e0 cs).val))))
          (TrailingZeros64 (v ^^^ (run e0 cs).val)) =
        64 - clampLeading (LeadingZeros64 (v ^^^ (run e0 cs).val)) -
          TrailingZeros64 (v ^^^ (run e0 cs).val)) ∧
      1 ≤ 64 - clampLeading (LeadingZeros64 (v ^^^ (run e0 cs).val)) -
          TrailingZeros64 (v ^^^ (run e0 cs).val) ∧
      64 - clampLeading (LeadingZeros64 (v ^^^ (run e0 cs).val)) -
          TrailingZeros64 (v ^^^ (run e0 cs).val) ≤ 64 ∧
      (natToBits 6 (64 - clampLeading (LeadingZeros64 (v ^^^ (run e0 cs).val)) -
          TrailingZeros64 (v ^^^ (run e0 cs).val)) = natToBits 6 0 ↔
        64 - clampLeading (LeadingZeros64 (v ^^^ (run e0 cs).val)) -
          TrailingZeros64 (v ^^^ (run e0 cs).val) = 64) ∧
      (64 - clampLeading (LeadingZeros64 (v ^^^ (run e0 cs).val)) -
          TrailingZeros64 (v ^^^ (run e0 cs).val) = 64 ↔
        clampLeading (LeadingZeros64 (v ^^^ (run e0 cs).val)) = 0 ∧
          TrailingZeros64 (v ^^^ (run e0 cs).val) = 0) ∧
      (((run e0 cs).leading ≠ allOnes ∧
          clampLeading (LeadingZeros64 (v ^^^ (run e0 cs).val)) ≥ (run e0 cs).leading ∧
          TrailingZeros64 (v ^^^ (run e0 cs).val) ≥ (run e0 cs).trailing) →
        1 ≤ 64 - ((run e0 cs).leading : Int) - ((run e0 cs).trailing : Int) ∧
          64 - ((run e0 cs).leading : Int) - ((run e0 cs).trailing : Int) ≤ 64 ∧
          (v ^^^ (run e0 cs).val) >>> (run e0 cs).trailing <
            2 ^ (64 - (run e0 cs).leading - (run e0 cs).trailing) ∧
          shl64 (((v ^^^ (run e0 cs).val) >>> (run e0 cs).trailing) %
            2 ^ (64 - (run e0 cs).leading - (run e0 cs).trailing)) (run e0 cs).trailing =
              v ^^^ (run e0 cs).val) := by
  have h0 : WindowOK e0 := by
    rcases he with h | h
    · rw [h]; exact WindowOK_new g
    · rw [h, Reset_eq_new]; exact WindowOK_new g
  have hs := run_WindowOK cs e0 h0 hcs
  generalize run e0 cs = s at hs hz
  have hb := delta_bounds v s.val hv hs.1 hz
  have hdT : 2 ^ TrailingZeros64 (v ^^^ s.val) ∣ v ^^^ s.val := ctz_dvd 64 _
  have hd0 := lt_pow_leading _ (xor_lt v s.val hv hs.1)
  generalize clampLeading (LeadingZeros64 (v ^^^ s.val)) = L at hb ⊢
  generalize TrailingZeros64 (v ^^^ s.val) = T at hb hdT ⊢
  have hsub : sub64 (sub64 64 L) T = 64 - L - T := by
    rw [sub64_small 64 L (by decide) (by omega), sub64_small (64 - L) T (by omega) (by omega)]
  refine ⟨hs.2, hsub, by omega, by omega, sigbits_field _ (by omega) (by omega), by omega, ?_⟩
  rintro ⟨_, hl, ht⟩
  have hd : v ^^^ s.val < 2 ^ (64 - s.leading) :=
    lt_of_lt_of_le hd0 (Nat.pow_le_pow_right (by decide) (by omega))
  have hdvd : 2 ^ s.trailing ∣ v ^^^ s.val :=
    Nat.dvd_trans (Nat.pow_dvd_pow 2 (by omega)) hdT
  have hlt : s.leading + s.trailing ≤ 63 := by omega
  refine ⟨by omega, by omega, ?_, shl64_shr _ _ _ hd hdvd hlt⟩
  rw [Nat.shiftRight_eq_div_pow]
  apply Nat.div_lt_of_lt_mul
  rw [← Nat.pow_add]
  have : s.trailing + (64 - s.leading - s.trailing) = 64 - s.leading := by omega
  rw [this]
  exact hd

set_option maxRecDepth 100000 in
theorem window_invariant_witness :
    (∀ v, Call.write v ∈ [Call.write 0, Call.write 0xFF0000000000, Call.flush] → v < two64) ∧
      0x1008000000000 < two64 ∧
      ((run (NewMultiFloatEncoder 1)
        [Call.write 0, Call.write 0xFF0000000000, Call.flush]).leading = allOnes ∨
        ((run (NewMultiFloatEncoder 1)
          [Call.write 0, Call.write 0xFF0000000000, Call.flush]).leading ≤ 31 ∧
        (run (NewMultiFloatEncoder 1)
          [Call.write 0, Call.write 0xFF0000000000, Call.flush]).leading +
        (run (NewMultiFloatEncoder 1)
          [Call.write 0, Call.write 0xFF0000000000, Call.flush]).trailing ≤ 63)) :=
  ⟨by intro v hv; simp at hv; rcases hv with h | h <;> rw [h] <;> decide, by decide,
    (window_invariant 1 (NewMultiFloatEncoder 1) (NewMultiFloatEncoder 1) (Or.inl rfl)
      [Call.write 0, Call.write 0xFF0000000000, Call.flush]
      (by intro v hv; simp at hv; rcases hv with h | h <;> rw [h] <;> decide)
      0x1008000000000 (by decide) (by decide)).1⟩

/-! ## The buffer before `Flush` -/

theorem append_cut {α : Type} (A P H R : List α) (h : A ++ P = H ++ R)
    (hp : P.length ≤ R.length) : A = H ++ R.take (R.length - P.length) := by
  have hl := congrArg List.length h
  simp only [List.length_append] at hl
  have hA : A = (A ++ P).take A.length := (List.take_left' rfl).symm
  rw [hA, h, List.take_append_eq_append_take, List.take_of_length_le (by omega)]
  congr 2
  omega

theorem Next_no_bits (d : MultiFloatDecoder) (h1 : d.first = false) (h2 : d.finished = false)
    (h3 : d.err = none) (h4 : d.br = []) : (Next d).1 = false ∧ (Next d).2.err ≠ none := by
  obtain ⟨val, l, t, br, b, first, fin, err⟩ := d
  dsimp only at h1 h2 h3 h4
  subst h1 h2 h3 h4
  simp [Next, BitReader.ReadBit]

/-- Decoding a seed followed by the first `k` bits of the records of later values,
with no end-of-stream record: some first values, at least the seed, come out and
then the decoder fails; all values come out when no record is cut. -/
theorem decode_unterminated (g x : Nat) (xs : List Nat) (hx : ∀ y ∈ x :: xs, Valid y)
    (l t k : Nat) (b : List Nat)
    (hk : k ≤ (recordsBits ((NewMultiFloatEncoder g).Write x) xs).length) :
    ∃ m, 1 ≤ m ∧ m ≤ (x :: xs).length ∧
      (nextValues m ⟨x, l, t, (recordsBits ((NewMultiFloatEncoder g).Write x) xs).take k, b,
        true, false, none⟩).1 = (x :: xs).take m ∧
      (Next (nextValues m ⟨x, l, t, (recordsBits ((NewMultiFloatEncoder g).Write x) xs).take k,
        b, true, false, none⟩).2).1 = false ∧
      (Next (nextValues m ⟨x, l, t, (recordsBits ((NewMultiFloatEncoder g).Write x) xs).take k,
        b, true, false, none⟩).2).2.err ≠ none ∧
      (k = (recordsBits ((NewMultiFloatEncoder g).Write x) xs).length → m = (x :: xs).length) := by
  have hxv := hx x (List.mem_cons_self x xs)
  have hxs : ∀ y ∈ xs, Valid y := fun y hy => hx y (List.mem_cons_of_mem x hy)
  have h1 := Write_fresh g x hxv
  generalize hT : (recordsBits ((NewMultiFloatEncoder g).Write x) xs).take k = T
  have hN := Next_seed x l t T b hxv.ne_uvnan
  have hN' : (Next ⟨x, l, t, T, b, true, false, none⟩).1 = true := by rw [hN]
  have hs : Synced ((NewMultiFloatEncoder g).Write x) ⟨x, l, t, T, b, false, false, none⟩ :=
    ⟨rfl, rfl, rfl, h1.2.2.1.symm, fun hc => absurd h1.2.2.2.1 hc⟩
  have hv : ∀ n, nextValues (n + 1) ⟨x, l, t, T, b, true, false, none⟩ =
      (x :: (nextValues n ⟨x, l, t, T, b, false, false, none⟩).1,
        (nextValues n ⟨x, l, t, T, b, false, false, none⟩).2) := by
    intro n
    rw [nextValues_succ_true _ _ hN', hN]
    rfl
  by_cases hkl : k = (recordsBits ((NewMultiFloatEncoder g).Write x) xs).length
  · have hT' : T = recordsBits ((NewMultiFloatEncoder g).Write x) xs ++ [] := by
      rw [← hT, hkl, List.take_length, List.append_nil]
    obtain ⟨d1, d2, d3, _⟩ := decode_records xs _ ⟨x, l, t, T, b, false, false, none⟩ []
      h1.1 hxs hs hT'
    have hnb := Next_no_bits _ d2.1 d2.2.1 d2.2.2.1 d3
    refine ⟨xs.length + 1, by omega, le_refl _, ?_, ?_, ?_, fun _ => rfl⟩
    · rw [hv, List.take_succ_cons, List.take_length]
      show x :: _ = x :: _
      rw [d1]
    · rw [hv]; exact hnb.1
    · rw [hv]; exact hnb.2
  · have hlt : k < (recordsBits ((NewMultiFloatEncoder g).Write x) xs).length :=
      lt_of_le_of_ne hk hkl
    have hbr : T = (recordsBits ((NewMultiFloatEncoder g).Write x) xs ++
        recordBits (((NewMultiFloatEncoder g).Write x).writeAll xs) uvnan ++ []).take k := by
      rw [← hT, List.append_assoc, List.take_append_of_le_length hk]
    obtain ⟨n, hn1, hn2, hn3, hn4⟩ := trunc_records xs _ ⟨x, l, t, T, b, false, false, none⟩
      [] k h1.1 hxs hs (by rw [List.length_append]; omega) hbr
    refine ⟨n + 1, by omega, by simp only [List.length_cons]; omega, ?_, ?_, ?_,
      fun h => absurd h hkl⟩
    · rw [hv, List.take_succ_cons]
      show x :: _ = x :: _
      rw [hn2]
    · rw [hv]; exact hn3
    · rw [hv]; exact hn4

theorem Bytes_unflushed (g x : Nat) (xs : List Nat) (hx : ∀ y ∈ x :: xs, Valid y) :
    ((NewMultiFloatEncoder g).writeAll (x :: xs)).bw.pending.length ≤
        (recordsBits ((NewMultiFloatEncoder g).Write x) xs).length ∧
      bytesToBits ((NewMultiFloatEncoder g).writeAll (x :: xs)).Bytes.1 =
        natToBits 8 (g <<< 4) ++ (natToBits 64 x ++
          (recordsBits ((NewMultiFloatEncoder g).Write x) xs).take
            ((recordsBits ((NewMultiFloatEncoder g).Write x) xs).length -
              ((NewMultiFloatEncoder g).writeAll (x :: xs)).bw.pending.length)) := by
  have h := Running_writeAll_fresh g x xs hx
  have hp := h.1.2.2.1
  have ha := h.2
  rw [allBits] at ha
  have hl := congrArg List.length ha
  simp only [List.length_append, bytesToBits_length, natToBits_length] at hl
  have hle : ((NewMultiFloatEncoder g).writeAll (x :: xs)).bw.pending.length ≤
      (recordsBits ((NewMultiFloatEncoder g).Write x) xs).length := by omega
  refine ⟨hle, ?_⟩
  have hc := append_cut _ _ _ _ ha hle
  rw [List.append_assoc] at hc
  exact hc

set_option maxRecDepth 100000 in
/-- C14, evaluated on the code: after two writes of 3.14 to a fresh encoder and no
`Flush`, the buffer returned by `Bytes()` does not hold the bit of the second
value, which is still pending in the bit writer: `SetBytes` succeeds, the first
`Next` returns `true` with 3.14 and the second `Next` returns `false` with an
error. -/
theorem unflushed_bytes_lose_values :
    (∀ x ∈ [0x40091EB851EB851F, 0x40091EB851EB851F], x < two64 ∧ IsNaN x = false) ∧
      ((NewMultiFloatEncoder 1).writeAll [0x40091EB851EB851F, 0x40091EB851EB851F]).bw.pending =
        [false] ∧
      ((⟨0, 0, 0, [], [], false, false, none⟩ : MultiFloatDecoder).SetBytes
        ((NewMultiFloatEncoder 1).writeAll
          [0x40091EB851EB851F, 0x40091EB851EB851F]).Bytes.1).1 = none ∧
      (Next ((⟨0, 0, 0, [], [], false, false, none⟩ : MultiFloatDecoder).SetBytes
        ((NewMultiFloatEncoder 1).writeAll
          [0x40091EB851EB851F, 0x40091EB851EB851F]).Bytes.1).2).1 = true ∧
      (Next (Next ((⟨0, 0, 0, [], [], false, false, none⟩ : MultiFloatDecoder).SetBytes
        ((NewMultiFloatEncoder 1).writeAll
          [0x40091EB851EB851F, 0x40091EB851EB851F]).Bytes.1).2).2).1 = false ∧
      (Next (Next ((⟨0, 0, 0, [], [], false, false, none⟩ : MultiFloatDecoder).SetBytes
        ((NewMultiFloatEncoder 1).writeAll
          [0x40091EB851EB851F, 0x40091EB851EB851F]).Bytes.1).2).2).2.Error =
        some Error.truncatedStream := by
  decide

/-- C14, amended: for every non-empty list `xs` of `n` non-NaN values written to a
fresh encoder without calling `Flush`, `SetBytes` on the buffer returned by
`Bytes()` succeeds and the decoder returns `true` from its first `m` calls of
`Next`, for some `1 ≤ m ≤ n`, with `Values()` equal to `xs[i]` after the `i`-th
call, and then returns `false` with an error; `m = n` when the bit writer holds
no pending bits, the bits of the byte under construction not being in the
buffer. -/
theorem bytes_before_flush (g : Nat) (xs : List Nat) (hne : xs ≠ [])
    (hx : ∀ x ∈ xs, x < two64 ∧ IsNaN x = false) (it : MultiFloatDecoder) :
    (it.SetBytes ((NewMultiFloatEncoder g).writeAll xs).Bytes.1).1 = none ∧
      ∃ m, 1 ≤ m ∧ m ≤ xs.length ∧
        (nextValues m (it.SetBytes ((NewMultiFloatEncoder g).writeAll xs).Bytes.1).2).1 =
          xs.take m ∧
        (Next (nextValues m
          (it.SetBytes ((NewMultiFloatEncoder g).writeAll xs).Bytes.1).2).2).1 = false ∧
        (Next (nextValues m
          (it.SetBytes ((NewMultiFloatEncoder g).writeAll xs).Bytes.1).2).2).2.Error ≠ none ∧
        (((NewMultiFloatEncoder g).writeAll xs).bw.pending = [] → m = xs.length) := by
  cases xs with
  | nil => exact absurd rfl hne
  | cons x xs =>
    have hb := Bytes_unflushed g x xs hx
    have hset := SetBytes_stream it _ (g <<< 4) x _ (hx x (List.mem_cons_self x xs)).1 hb.2
    rw [hset]
    obtain ⟨m, m1, m2, m3, m4, m5, m6⟩ := decode_unterminated g x xs hx 0 0
      ((recordsBits ((NewMultiFloatEncoder g).Write x) xs).length -
        ((NewMultiFloatEncoder g).writeAll (x :: xs)).bw.pending.length)
      ((NewMultiFloatEncoder g).writeAll (x :: xs)).Bytes.1 (Nat.sub_le _ _)
    refine ⟨rfl, m, m1, m2, m3, m4, m5, ?_⟩
    intro hp
    apply m6
    rw [hp]
    rfl

set_option maxRecDepth 100000 in
theorem bytes_before_flush_witness :
    [0x40091EB851EB851F, 0x40091EB851EB851F] ≠ [] ∧
      (∀ x ∈ [0x40091EB851EB851F, 0x40091EB851EB851F], x < two64 ∧ IsNaN x = false) ∧
      ((⟨0, 0, 0, [], [], false, false, none⟩ : MultiFloatDecoder).SetBytes
        ((NewMultiFloatEncoder 1).writeAll
          [0x40091EB851EB851F, 0x40091EB851EB851F]).Bytes.1).1 = none :=
  ⟨by decide, by decide,
    (bytes_before_flush 1 [0x40091EB851EB851F, 0x40091EB851EB851F] (by decide) (by decide)
      ⟨0, 0, 0, [], [], false, false, none⟩).1⟩

/-! ## The steps of the decoder -/

theorem bitsToNat_lt (bs : List Bool) : bitsToNat bs < 2 ^ bs.length := by
  induction bs using List.reverseRecOn with
  | nil => decide
  | append_singleton bs b ih =>
    rw [bitsToNat_append_single, List.length_append, List.length_singleton, Nat.pow_succ]
    cases b <;> simp <;> omega

theorem ReadBits_ok (br : List Bool) (n v : Nat) (r : List Bool)
    (h : BitReader.ReadBits br n = Except.ok (v, r)) :
    v < 2 ^ n ∧ r.length + n = br.length := by
  unfold BitReader.ReadBits at h
  by_cases hl : br.length < n
  · rw [if_pos hl] at h; exact Except.noConfusion h
  · rw [if_neg hl] at h
    injection h with h
    injection h with h1 h2
    have hlen : (br.take n).length = n := by rw [List.length_take]; omega
    refine ⟨?_, ?_⟩
    · rw [← h1]
      have := bitsToNat_lt (br.take n)
      rw [hlen] at this
      exact lt_of_le_of_lt (Nat.mod_le _ _) this
    · rw [← h2, List.length_drop]; omega

theorem readValue_br (d : MultiFloatDecoder) : (readValue d).2.br.length ≤ d.br.length := by
  cases hr : BitReader.ReadBits d.br (sub64 (sub64 64 d.leading) d.trailing) with
  | error e => simp [readValue, hr]
  | ok p =>
    obtain ⟨v, rest⟩ := p
    have := (ReadBits_ok _ _ _ _ hr).2
    simp only [readValue, hr]
    split <;> (dsimp only; omega)

theorem readValue_val (d : MultiFloatDecoder) :
    ((readValue d).1 = true → (readValue d).2.val ≠ uvnan) ∧
      ((readValue d).1 = false → (readValue d).2.val = d.val) := by
  cases hr : BitReader.ReadBits d.br (sub64 (sub64 64 d.leading) d.trailing) with
  | error e => simp [readValue, hr]
  | ok p =>
    obtain ⟨v, rest⟩ := p
    simp only [readValue, hr]
    split
    · simp
    · rename_i hne
      simp [hne]

theorem readWindow_br (d : MultiFloatDecoder) : (readWindow d).2.br.length ≤ d.br.length := by
  cases hr : BitReader.ReadBits d.br 5 with
  | error e => simp [readWindow, hr]
  | ok p =>
    obtain ⟨v, rest⟩ := p
    have h1 := (ReadBits_ok _ _ _ _ hr).2
    cases hs : BitReader.ReadBits rest 6 with
    | error e => simp only [readWindow, hr, hs]; omega
    | ok q =>
      obtain ⟨v', rest'⟩ := q
      have h2 := (ReadBits_ok _ _ _ _ hs).2
      simp only [readWindow, hr, hs]
      omega

/-- After a new window has been read, the width `64 - leading - trailing`, taken
with 64-bit wrap-around, is the 6-bit field with 0 read as 64. -/
theorem readWindow_width (d : MultiFloatDecoder) (h : (readWindow d).1 = none) :
    1 ≤ sub64 (sub64 64 (readWindow d).2.leading) (readWindow d).2.trailing ∧
      sub64 (sub64 64 (readWindow d).2.leading) (readWindow d).2.trailing ≤ 64 := by
  cases hr : BitReader.ReadBits d.br 5 with
  | error e => simp [readWindow, hr] at h
  | ok p =>
    obtain ⟨v, rest⟩ := p
    have h1 := (ReadBits_ok _ _ _ _ hr).1
    cases hs : BitReader.ReadBits rest 6 with
    | error e => simp [readWindow, hr, hs] at h
    | ok q =>
      obtain ⟨v', rest'⟩ := q
      have h2 := (ReadBits_ok _ _ _ _ hs).1
      simp only [readWindow, hr, hs]
      have h5 : (2 : Nat) ^ 5 = 32 := by decide
      have h6 : (2 : Nat) ^ 6 = 64 := by decide
      rw [h5] at h1
      rw [h6] at h2
      unfold sub64 two64
      split <;> omega

/-- The ways `Next` goes on a decoder that is past its seed and not stopped,
by the first bits of the stream. -/
theorem Next_running (val l t : Nat) (br : List Bool) (b : List Nat) :
    (br = [] ∧ Next ⟨val, l, t, br, b, false, false, none⟩ =
        (false, ⟨val, l, t, br, b, false, false, some Error.truncatedStream⟩)) ∨
      (∃ r, br = false :: r ∧ Next ⟨val, l, t, br, b, false, false, none⟩ =
        (true, ⟨val, l, t, r, b, false, false, none⟩)) ∨
      (br = [true] ∧ Next ⟨val, l, t, br, b, false, false, none⟩ =
        (false, ⟨val, l, t, [], b, false, false, some Error.truncatedStream⟩)) ∨
      (∃ r, br = true :: false :: r ∧ Next ⟨val, l, t, br, b, false, false, none⟩ =
        readValue ⟨val, l, t, r, b, false, false, none⟩) ∨
      (∃ r, br = true :: true :: r ∧
        (((readWindow ⟨val, l, t, r, b, false, false, none⟩).1 ≠ none ∧
            (Next ⟨val, l, t, br, b, false, false, none⟩).1 = false ∧
            (Next ⟨val, l, t, br, b, false, false, none⟩).2.err ≠ none ∧
            (Next ⟨val, l, t, br, b, false, false, none⟩).2.val = val) ∨
          ((readWindow ⟨val, l, t, r, b, false, false, none⟩).1 = none ∧
            Next ⟨val, l, t, br, b, false, false, none⟩ =
              readValue (readWindow ⟨val, l, t, r, b, false, false, none⟩).2))) := by
  rcases br with _ | ⟨b1, r⟩
  · exact Or.inl ⟨rfl, by simp [Next, BitReader.ReadBit]⟩
  · cases b1 with
    | false => exact Or.inr (Or.inl ⟨r, rfl, by simp [Next, BitReader.ReadBit]⟩)
    | true =>
      rcases r with _ | ⟨b2, r⟩
      · exact Or.inr (Or.inr (Or.inl ⟨rfl, by simp [Next, BitReader.ReadBit]⟩))
      · cases b2 with
        | false =>
          exact Or.inr (Or.inr (Or.inr (Or.inl ⟨r, rfl, by simp [Next, BitReader.ReadBit]⟩)))
        | true =>
          refine Or.inr (Or.inr (Or.inr (Or.inr ⟨r, rfl, ?_⟩)))
          have hwf := readWindow_fields ⟨val, l, t, r, b, false, false, none⟩
          cases hw : readWindow ⟨val, l, t, r, b, false, false, none⟩ with
          | mk we wd =>
            rw [hw] at hwf
            cases we with
            | some e =>
              refine Or.inl ⟨by simp, ?_⟩
              simp only [Next, BitReader.ReadBit, hw]
              simp
              exact hwf.2.2.2.2
            | none =>
              refine Or.inr ⟨rfl, ?_⟩
              simp [Next, BitReader.ReadBit, hw]

theorem terminal_or_running (d : MultiFloatDecoder) :
    (d.err ≠ none ∨ d.finished = true) ∨ (d.err = none ∧ d.finished = false) := by
  by_cases h0 : d.err ≠ none ∨ d.finished = true
  · exact Or.inl h0
  · refine Or.inr ⟨?_, ?_⟩
    · by_contra hc; exact h0 (Or.inl hc)
    · cases hf : d.finished
      · rfl
      · exact absurd (Or.inr hf) h0

/-! ## The sentinel is never given out -/

theorem Next_false_val (d : MultiFloatDecoder) (h : (Next d).1 = false) :
    (Next d).2.val = d.val := by
  rcases terminal_or_running d with h0 | ⟨he, hf⟩
  · rw [Next_of_terminal d h0]
  · obtain ⟨val, l, t, br, b, first, fin, err⟩ := d
    dsimp only at he hf
    subst he hf
    cases first with
    | true =>
      by_cases h2 : val = uvnan
      · simp [Next, h2]
      · simp [Next, h2] at h
    | false =>
      rcases Next_running val l t br b with ⟨_, hN⟩ | ⟨r, _, hN⟩ | ⟨_, hN⟩ | ⟨r, _, hN⟩ |
        ⟨r, _, ⟨_, _, _, hv⟩ | ⟨hw, hN⟩⟩
      · rw [hN]
      · rw [hN] at h; exact Bool.noConfusion h
      · rw [hN]
      · rw [hN] at h ⊢
        exact (readValue_val _).2 h
      · exact hv
      · rw [hN] at h ⊢
        rw [(readValue_val _).2 h]
        exact (readWindow_fields _).2.2.2.2

theorem Next_true_val (d : MultiFloatDecoder)
    (hK : d.first = false → d.err ≠ none ∨ d.finished = true ∨ d.val ≠ uvnan)
    (h : (Next d).1 = true) : (Next d).2.val ≠ uvnan := by
  rcases terminal_or_running d with h0 | ⟨he, hf⟩
  · rw [Next_of_terminal d h0] at h; exact Bool.noConfusion h
  · obtain ⟨val, l, t, br, b, first, fin, err⟩ := d
    dsimp only at he hf hK
    subst he hf
    cases first with
    | true =>
      by_cases h2 : val = uvnan
      · simp [Next, h2] at h
      · simp [Next, h2]
    | false =>
      have hval : val ≠ uvnan := by
        rcases hK rfl with h1 | h1 | h1
        · exact absurd rfl h1
        · exact Bool.noConfusion h1
        · exact h1
      rcases Next_running val l t br b with ⟨_, hN⟩ | ⟨r, _, hN⟩ | ⟨_, hN⟩ | ⟨r, _, hN⟩ |
        ⟨r, _, ⟨_, hf, _, _⟩ | ⟨hw, hN⟩⟩
      · rw [hN] at h; exact Bool.noConfusion h
      · rw [hN]; exact hval
      · rw [hN] at h; exact Bool.noConfusion h
      · rw [hN] at h ⊢
        exact (readValue_val _).1 h
      · rw [hf] at h; exact Bool.noConfusion h
      · rw [hN] at h ⊢
        exact (readValue_val _).1 h

theorem nextN_succ (n : Nat) (d : MultiFloatDecoder) :
    nextN (n + 1) d = nextN n (Next d).2 := rfl

theorem nextN_no_sentinel (n : Nat) (d : MultiFloatDecoder)
    (hK : d.first = false → d.err ≠ none ∨ d.finished = true ∨ d.val ≠ uvnan) :
    (nextN n d).first = false →
      (nextN n d).err ≠ none ∨ (nextN n d).finished = true ∨ (nextN n d).val ≠ uvnan := by
  induction n generalizing d with
  | zero => exact hK
  | succ n ih =>
    rw [nextN_succ]
    apply ih
    intro _
    cases hb : (Next d).1 with
    | true => exact Or.inr (Or.inr (Next_true_val d hK hb))
    | false =>
      rcases Next_false_terminal d hb with h1 | h1
      · exact Or.inl h1
      · exact Or.inr (Or.inl h1)

theorem SetBytes_first (it : MultiFloatDecoder) (b : List Nat) (h : (it.SetBytes b).1 = none) :
    (it.SetBytes b).2.first = true ∧ (it.SetBytes b).2.leading = 0 ∧
      (it.SetBytes b).2.trailing = 0 := by
  cases b with
  | nil => rw [SetBytes_nil]; exact ⟨rfl, rfl, rfl⟩
  | cons x tl =>
    by_cases hl : tl.length < 8
    · rw [SetBytes_cons_error it x tl hl] at h
      exact Option.noConfusion h
    · rw [SetBytes_cons_ok it x tl (not_lt.mp hl)]; exact ⟨rfl, rfl, rfl⟩

/-- C18: for every byte slice `b` on which `SetBytes` succeeds, and after any
number of calls of `Next`, a call of `Next` that returns `true` leaves a current
value whose bit pattern differs from `uvnan`; and a call of `Next` that returns
`false`, in any decoder state, leaves the current value as it was, so `Values()`
still returns the last value given out. -/
theorem never_yields_sentinel (it : MultiFloatDecoder) (b : List Nat)
    (h : (it.SetBytes b).1 = none) (n : Nat) :
    ((Next (nextN n (it.SetBytes b).2)).1 = true →
        (Next (nextN n (it.SetBytes b).2)).2.Values ≠ uvnan) ∧
      (∀ d : MultiFloatDecoder, (Next d).1 = false → (Next d).2.Values = d.Values) := by
  refine ⟨?_, fun d hd => Next_false_val d hd⟩
  intro ht
  apply Next_true_val _ _ ht
  apply nextN_no_sentinel
  intro hf
  rw [(SetBytes_first it b h).1] at hf
  exact Bool.noConfusion hf

set_option maxRecDepth 100000 in
theorem never_yields_sentinel_witness :
    ((⟨0, 0, 0, [], [], false, false, none⟩ : MultiFloatDecoder).SetBytes
        [16, 0x40, 0x09, 0x1E, 0xB8, 0x51, 0xEB, 0x85, 0x1F, 0xFF]).1 = none ∧
      (Next (nextN 1 ((⟨0, 0, 0, [], [], false, false, none⟩ : MultiFloatDecoder).SetBytes
        [16, 0x40, 0x09, 0x1E, 0xB8, 0x51, 0xEB, 0x85, 0x1F, 0xFF]).2)).1 = false ∧
      (Next (nextN 0 ((⟨0, 0, 0, [], [], false, false, none⟩ : MultiFloatDecoder).SetBytes
        [16, 0x40, 0x09, 0x1E, 0xB8, 0x51, 0xEB, 0x85, 0x1F, 0xFF]).2)).2.Values ≠ uvnan :=
  ⟨by decide, by decide,
    (never_yields_sentinel ⟨0, 0, 0, [], [], false, false, none⟩
      [16, 0x40, 0x09, 0x1E, 0xB8, 0x51, 0xEB, 0x85, 0x1F, 0xFF] (by decide) 0).1 (by decide)⟩

/-! ## The widths of the reads -/

theorem Next_WidthOK (d : MultiFloatDecoder) (hW : WidthOK d) : WidthOK (Next d).2 := by
  rcases terminal_or_running d with h0 | ⟨he, hf⟩
  · rw [Next_of_terminal d h0]; exact hW
  · obtain ⟨val, l, t, br, b, first, fin, err⟩ := d
    dsimp only at he hf
    subst he hf
    have hw : 1 ≤ sub64 (sub64 64 l) t ∧ sub64 (sub64 64 l) t ≤ 64 := by
      rcases hW with (h1 | h1) | h1
      · exact absurd rfl h1
      · exact Bool.noConfusion h1
      · exact h1
    cases first with
    | true =>
      by_cases h2 : val = uvnan
      · exact Or.inl (Or.inr (by simp [Next, h2]))
      · have hN : Next ⟨val, l, t, br, b, true, false, none⟩ =
            (true, ⟨val, l, t, br, b, false, false, none⟩) := by simp [Next, h2]
        rw [hN]; exact Or.inr hw
    | false =>
      rcases Next_running val l t br b with ⟨_, hN⟩ | ⟨r, _, hN⟩ | ⟨_, hN⟩ | ⟨r, _, hN⟩ |
        ⟨r, _, ⟨_, _, he, _⟩ | ⟨hwin, hN⟩⟩
      · rw [hN]; exact Or.inl (Or.inl (by simp))
      · rw [hN]; exact Or.inr hw
      · rw [hN]; exact Or.inl (Or.inl (by simp))
      · rw [hN]
        have hf := readValue_fields ⟨val, l, t, r, b, false, false, none⟩
        refine Or.inr ?_
        rw [hf.2.2.2.2.1, hf.2.2.2.2.2]
        exact hw
      · exact Or.inl (Or.inl he)
      · rw [hN]
        have hf := readValue_fields (readWindow ⟨val, l, t, r, b, false, false, none⟩).2
        refine Or.inr ?_
        rw [hf.2.2.2.2.1, hf.2.2.2.2.2]
        exact readWindow_width _ hwin

theorem nextN_WidthOK (n : Nat) (d : MultiFloatDecoder) (hW : WidthOK d) :
    WidthOK (nextN n d) := by
  induction n generalizing d with
  | zero => exact hW
  | succ n ih => rw [nextN_succ]; exact ih _ (Next_WidthOK d hW)

/-- When `readWidth` gives a width, `Next` ends in the read of the significant
bits with that width, and the width lies in `[1, 64]`. -/
theorem readWidth_spec (d : MultiFloatDecoder) (hW : WidthOK d) (w : Nat)
    (hw : readWidth d = some w) :
    1 ≤ w ∧ w ≤ 64 ∧
      ∃ d1, Next d = readValue d1 ∧ sub64 (sub64 64 d1.leading) d1.trailing = w := by
  rcases terminal_or_running d with h0 | ⟨he, hf⟩
  · simp [readWidth, h0] at hw
  · obtain ⟨val, l, t, br, b, first, fin, err⟩ := d
    dsimp only at he hf
    subst he hf
    have hr : 1 ≤ sub64 (sub64 64 l) t ∧ sub64 (sub64 64 l) t ≤ 64 := by
      rcases hW with (h1 | h1) | h1
      · exact absurd rfl h1
      · exact Bool.noConfusion h1
      · exact h1
    cases first with
    | true => simp [readWidth] at hw
    | false =>
      rcases br with _ | ⟨b1, r⟩
      · simp [readWidth, BitReader.ReadBit] at hw
      · cases b1 with
        | false => simp [readWidth, BitReader.ReadBit] at hw
        | true =>
          rcases r with _ | ⟨b2, r⟩
          · simp [readWidth, BitReader.ReadBit] at hw
          · cases b2 with
            | false =>
              simp [readWidth, BitReader.ReadBit] at hw
              rw [← hw]
              exact ⟨hr.1, hr.2, ⟨val, l, t, r, b, false, false, none⟩,
                by simp [Next, BitReader.ReadBit], rfl⟩
            | true =>
              have hww := readWindow_width ⟨val, l, t, r, b, false, false, none⟩
              cases hwin : readWindow ⟨val, l, t, r, b, false, false, none⟩ with
              | mk we wd =>
                rw [hwin] at hww
                cases we with
                | some e => simp [readWidth, BitReader.ReadBit, hwin] at hw
                | none =>
                  simp [readWidth, BitReader.ReadBit, hwin] at hw
                  rw [← hw]
                  exact ⟨(hww rfl).1, (hww rfl).2, wd,
                    by simp [Next, BitReader.ReadBit, hwin], rfl⟩

/-- C19: for every byte slice `b` on which `SetBytes` succeeds, malformed streams
included, and after any number of calls of `Next`, the `ReadBits` call that `Next`
makes for the significant bits is made with a width `64 - leading - trailing`
(mod 2^64) that lies in `[1, 64]`; `Next`, a total function here, then ends in
that read. -/
theorem read_width_in_range (it : MultiFloatDecoder) (b : List Nat)
    (h : (it.SetBytes b).1 = none) (n w : Nat)
    (hw : readWidth (nextN n (it.SetBytes b).2) = some w) :
    1 ≤ w ∧ w ≤ 64 ∧
      ∃ d1, Next (nextN n (it.SetBytes b).2) = readValue d1 ∧
        sub64 (sub64 64 d1.leading) d1.trailing = w := by
  apply readWidth_spec _ _ w hw
  apply nextN_WidthOK
  have hs := SetBytes_first it b h
  refine Or.inr ?_
  rw [hs.2.1, hs.2.2]
  decide

set_option maxRecDepth 100000 in
theorem read_width_in_range_witness :
    ((⟨0, 0, 0, [], [], false, false, none⟩ : MultiFloatDecoder).SetBytes
        [16, 0x40, 0x09, 0x1E, 0xB8, 0x51, 0xEB, 0x85, 0x1F, 0xFF, 0xFF]).1 = none ∧
      readWidth (nextN 1 ((⟨0, 0, 0, [], [], false, false, none⟩ : MultiFloatDecoder).SetBytes
        [16, 0x40, 0x09, 0x1E, 0xB8, 0x51, 0xEB, 0x85, 0x1F, 0xFF, 0xFF]).2) = some 63 ∧
      1 ≤ 63 ∧ 63 ≤ 64 :=
  ⟨by decide, by decide,
    (read_width_in_range ⟨0, 0, 0, [], [], false, false, none⟩
      [16, 0x40, 0x09, 0x1E, 0xB8, 0x51, 0xEB, 0x85, 0x1F, 0xFF, 0xFF] (by decide) 1 63
      (by decide)).1,
    (read_width_in_range ⟨0, 0, 0, [], [], false, false, none⟩
      [16, 0x40, 0x09, 0x1E, 0xB8, 0x51, 0xEB, 0x85, 0x1F, 0xFF, 0xFF] (by decide) 1 63
      (by decide)).2.1⟩

/-! ## The number of values of a stream -/

/-- A call of `Next` that returns `true` gives out the seed or consumes at least
one bit. -/
theorem Next_consumes (d : MultiFloatDecoder) (h : (Next d).1 = true) :
    (d.first = true → (Next d).2.br = d.br) ∧
      (d.first = false → (Next d).2.br.length + 1 ≤ d.br.length) := by
  rcases terminal_or_running d with h0 | ⟨he, hf⟩
  · rw [Next_of_terminal d h0] at h; exact Bool.noConfusion h
  · obtain ⟨val, l, t, br, b, first, fin, err⟩ := d
    dsimp only at he hf
    subst he hf
    cases first with
    | true =>
      refine ⟨fun _ => ?_, fun hc => Bool.noConfusion hc⟩
      by_cases h2 : val = uvnan
      · simp [Next, h2] at h
      · simp [Next, h2]
    | false =>
      refine ⟨fun hc => Bool.noConfusion hc, fun _ => ?_⟩
      dsimp only
      rcases Next_running val l t br b with ⟨_, hN⟩ | ⟨r, hb, hN⟩ | ⟨_, hN⟩ | ⟨r, hb, hN⟩ |
        ⟨r, hb, ⟨_, hf, _, _⟩ | ⟨hwin, hN⟩⟩
      · rw [hN] at h; exact Bool.noConfusion h
      · rw [hN, hb]; exact le_refl _
      · rw [hN] at h; exact Bool.noConfusion h
      · rw [hN, hb]
        have := readValue_br ⟨val, l, t, r, b, false, false, none⟩
        simp only [List.length_cons]
        dsimp only at this
        omega
      · rw [hf] at h; exact Bool.noConfusion h
      · rw [hN, hb]
        have h1 := readValue_br (readWindow ⟨val, l, t, r, b, false, false, none⟩).2
        have h2 := readWindow_br ⟨val, l, t, r, b, false, false, none⟩
        simp only [List.length_cons]
        dsimp only at h2
        omega

theorem Next_budget (d : MultiFloatDecoder) (h : (Next d).1 = true) :
    budget (Next d).2 + 1 ≤ budget d := by
  have hc := Next_consumes d h
  have hf := (Next_true_fields d h).2.2.1
  unfold budget
  rw [hf]
  cases hd : d.first with
  | true => rw [hc.1 hd]; simp; omega
  | false => have := hc.2 hd; simp; omega

theorem budget_zero (d : MultiFloatDecoder) (h : budget d = 0) : (Next d).1 = false := by
  cases hb : (Next d).1 with
  | false => rfl
  | true =>
    have := Next_budget d hb
    omega

theorem nextValues_budget (n : Nat) (d : MultiFloatDecoder) :
    (nextValues n d).1.length + budget (nextValues n d).2 ≤ budget d ∧
      ((nextValues n d).1.length < n → (Next (nextValues n d).2).1 = false) := by
  induction n generalizing d with
  | zero => exact ⟨by rw [nextValues_zero]; simp, fun hc => absurd hc (Nat.not_lt_zero _)⟩
  | succ n ih =>
    cases hb : (Next d).1 with
    | true =>
      have h1 := Next_budget d hb
      have h2 := ih (Next d).2
      rw [nextValues_succ_true n d hb]
      simp only [List.length_cons]
      exact ⟨by omega, fun hc => h2.2 (by omega)⟩
    | false =>
      rw [nextValues_of_false _ d hb]
      exact ⟨by simp, fun _ => hb⟩

/-- C20: for every byte slice `b` with at least 9 bytes, valid or not, `SetBytes`
succeeds and at most `1 + 8 * (len(b) - 9)` calls of `Next` return `true` before
the first that returns `false`: a loop on `Next` of whatever length gives out at
most that many values, and after that many the next call returns `false`; every
call after the seed that returns `true` consumes at least one bit. -/
theorem decode_bounded (it : MultiFloatDecoder) (b : List Nat) (hb : 9 ≤ b.length) (n : Nat) :
    (it.SetBytes b).1 = none ∧
      (nextValues n (it.SetBytes b).2).1.length ≤ 1 + 8 * (b.length - 9) ∧
      (Next (nextValues (1 + 8 * (b.length - 9)) (it.SetBytes b).2).2).1 = false ∧
      (∀ d : MultiFloatDecoder, d.first = false → (Next d).1 = true →
        (Next d).2.br.length + 1 ≤ d.br.length) := by
  cases b with
  | nil => simp at hb
  | cons x tl =>
    have hl : 8 ≤ tl.length := by simp only [List.length_cons] at hb; omega
    have hset := SetBytes_cons_ok it x tl hl
    have hbud : budget (it.SetBytes (x :: tl)).2 = 1 + 8 * ((x :: tl).length - 9) := by
      rw [hset]
      simp only [budget, List.length_drop, bytesToBits_length, List.length_cons, if_true]
      omega
    rw [← hbud]
    refine ⟨by rw [hset], ?_, ?_, fun d hd ht => (Next_consumes d ht).2 hd⟩
    · have := (nextValues_budget n (it.SetBytes (x :: tl)).2).1
      omega
    · have h1 := nextValues_budget (budget (it.SetBytes (x :: tl)).2) (it.SetBytes (x :: tl)).2
      by_cases hlt : (nextValues (budget (it.SetBytes (x :: tl)).2)
          (it.SetBytes (x :: tl)).2).1.length < budget (it.SetBytes (x :: tl)).2
      · exact h1.2 hlt
      · exact budget_zero _ (by have := h1.1; omega)

set_option maxRecDepth 100000 in
theorem decode_bounded_witness :
    9 ≤ [16, 0x40, 0x09, 0x1E, 0xB8, 0x51, 0xEB, 0x85, 0x1F, 0x00].length ∧
      (nextValues 20 ((⟨0, 0, 0, [], [], false, false, none⟩ : MultiFloatDecoder).SetBytes
        [16, 0x40, 0x09, 0x1E, 0xB8, 0x51, 0xEB, 0x85, 0x1F, 0x00]).2).1.length ≤
        1 + 8 * ([16, 0x40, 0x09, 0x1E, 0xB8, 0x51, 0xEB, 0x85, 0x1F, 0x00].length - 9) :=
  ⟨by decide,
    (decode_bounded ⟨0, 0, 0, [], [], false, false, none⟩
      [16, 0x40, 0x09, 0x1E, 0xB8, 0x51, 0xEB, 0x85, 0x1F, 0x00] (by decide) 20).2.1⟩

end Tsm1
